import Mathlib

/-!
resource-codec: binary codec for pictures, animations, tags and keys

A shallow embedding of the Go package `codec` (files `picture.go`,
`animation.go`, `header.go`, `types.go`) together with the parts of the Go
standard library the package calls (`bytes.Buffer`, `encoding/binary`,
`io.ReadFull`, the built-in `make` and the integer conversions).

Conventions of the embedding:

* a byte (`uint8`) is a `Nat` below 256, a byte slice is a `List Nat`;
* a Go `string` is the list of its bytes;
* `int` is 64 bits wide and is an `Int`; `int32` is an `Int` in
  `[-2^31, 2^31)`; conversions reduce modulo `2^32` explicitly;
* a `float64` is carried as its IEEE-754 bit pattern (`math.Float64bits`),
  a `Nat` below `2^64`: the codec only moves the pattern in and out of
  the byte stream;
* for `GetSpritesheetFrames` alone, which computes with `float64` values, a
  `float64` is the value itself (`Float64`: NaN, an infinity or a signed
  finite number) and every operation rounds as IEEE 754 binary64 does; its
  loops carry a bound on the number of iterations;
* a call returns `Except Failure α`: a value, an error value handed to
  the caller, or a run-time panic;
* a `bytes.Buffer` that is written to is the list of bytes written so far;
  a `bytes.Buffer` that is read from is the list of bytes not yet read.
-/

namespace Codec

/-! ## Outcomes -/

/-- The error values the readers can return (`io.EOF`, `io.ErrUnexpectedEOF`). -/
inductive GoError where
  | EOF
  | ErrUnexpectedEOF
  deriving DecidableEq

/-- How a call can fail: with an error value returned to the caller, or by a
run-time panic that unwinds the goroutine. -/
inductive Failure where
  | err (e : GoError)
  | panic
  deriving DecidableEq

/-! ## Integer conversions -/

/-- Go conversion `int32(v)` of an integer: two's complement truncation. -/
def int32OfInt (v : Int) : Int := (v + 2 ^ 31) % 2 ^ 32 - 2 ^ 31

/-- Go conversion `uint32(v)` of a signed integer. -/
def uint32OfInt (v : Int) : Nat := (v % 2 ^ 32).toNat

/-- Go conversion `int32(u)` of a `uint32`. -/
def int32OfUint32 (u : Nat) : Int := if u < 2 ^ 31 then (u : Int) else (u : Int) - 2 ^ 32

/-! ## encoding/binary, big-endian byte order -/

/-- `binary.BigEndian.PutUint32`: the four bytes `byte(v>>24)`, `byte(v>>16)`,
`byte(v>>8)`, `byte(v)`. -/
def putUint32 (v : Nat) : List Nat :=
  [v / 2 ^ 24 % 256, v / 2 ^ 16 % 256, v / 2 ^ 8 % 256, v % 256]

/-- `binary.BigEndian.PutUint64`: the eight bytes `byte(v>>56)` … `byte(v)`. -/
def putUint64 (v : Nat) : List Nat :=
  [v / 2 ^ 56 % 256, v / 2 ^ 48 % 256, v / 2 ^ 40 % 256, v / 2 ^ 32 % 256,
   v / 2 ^ 24 % 256, v / 2 ^ 16 % 256, v / 2 ^ 8 % 256, v % 256]

/-- `binary.BigEndian.Uint32`: `b[3] | b[2]<<8 | b[1]<<16 | b[0]<<24`; the
shifted bytes do not overlap, so the bitwise or is a sum. -/
def beUint32 : List Nat → Nat
  | [b0, b1, b2, b3] => b3 + b2 * 2 ^ 8 + b1 * 2 ^ 16 + b0 * 2 ^ 24
  | _ => 0

/-- `binary.BigEndian.Uint64`: `b[7] | b[6]<<8 | … | b[0]<<56`. -/
def beUint64 : List Nat → Nat
  | [b0, b1, b2, b3, b4, b5, b6, b7] =>
      b7 + b6 * 2 ^ 8 + b5 * 2 ^ 16 + b4 * 2 ^ 24 + b3 * 2 ^ 32 + b2 * 2 ^ 40 +
        b1 * 2 ^ 48 + b0 * 2 ^ 56
  | _ => 0

/-! ## bytes.Buffer as a writer

`Buffer.Write` appends and always returns a nil error, so `binary.Write`
into a buffer only fails for a value that is not of fixed size, which none of
the values written by the codec is. -/

/-- `binary.Write(buffer, binary.BigEndian, v)` for `v` of type `uint8`. -/
def binaryWriteUint8 (buffer : List Nat) (v : Nat) : Except Failure (List Nat) :=
  .ok (buffer ++ [v])

/-- `binary.Write(buffer, binary.BigEndian, v)` for `v` of type `int32`. -/
def binaryWriteInt32 (buffer : List Nat) (v : Int) : Except Failure (List Nat) :=
  .ok (buffer ++ putUint32 (uint32OfInt v))

/-- `binary.Write(buffer, binary.BigEndian, v)` for `v` of type `float64`,
given by its bit pattern `math.Float64bits(v)`. -/
def binaryWriteFloat64 (buffer : List Nat) (bits : Nat) : Except Failure (List Nat) :=
  .ok (buffer ++ putUint64 bits)

/-- `buffer.WriteString(s)`: appends the bytes of `s`; the error is always nil. -/
def bufferWriteString (buffer : List Nat) (s : List Nat) : Except Failure (List Nat) :=
  .ok (buffer ++ s)

/-! ## bytes.Buffer as a reader -/

/-- `io.ReadFull(buffer, bs)` with `len(bs) = n`: the `n` bytes read and the
rest of the buffer; `io.EOF` when nothing could be read, and
`io.ErrUnexpectedEOF` when the buffer ran out part-way. -/
def readFull (n : Nat) (buffer : List Nat) : Except Failure (List Nat × List Nat) :=
  if n ≤ buffer.length then .ok (buffer.take n, buffer.drop n)
  else if buffer.length = 0 then .error (.err .EOF)
  else .error (.err .ErrUnexpectedEOF)

/-- `binary.Read(buffer, binary.BigEndian, &v)` for `v` of type `uint8`. -/
def binaryReadUint8 (buffer : List Nat) : Except Failure (Nat × List Nat) := do
  let (bs, buffer) ← readFull 1 buffer
  pure (bs.headD 0, buffer)

/-- `binary.Read(buffer, binary.BigEndian, &v)` for `v` of type `int32`. -/
def binaryReadInt32 (buffer : List Nat) : Except Failure (Int × List Nat) := do
  let (bs, buffer) ← readFull 4 buffer
  pure (int32OfUint32 (beUint32 bs), buffer)

/-- `binary.Read(buffer, binary.BigEndian, &v)` for `v` of type `float64`;
the value is returned as its bit pattern. -/
def binaryReadFloat64 (buffer : List Nat) : Except Failure (Nat × List Nat) := do
  let (bs, buffer) ← readFull 8 buffer
  pure (beUint64 bs, buffer)

/-- The built-in `make([]byte, n)`: a slice of `n` zero bytes, and a run-time
panic (`makeslice: len out of range`) when `n` is negative. -/
def makeBytes (n : Int) : Except Failure (List Nat) :=
  if n < 0 then .error .panic else .ok (List.replicate n.toNat 0)

/-- `buffer.Read(p)`: on an empty buffer, `io.EOF` unless `len(p) = 0`;
otherwise `copy(p, unread)` and a nil error, however few bytes were copied.
Returns the new content of `p` and the rest of the buffer. -/
def bufferRead (p : List Nat) (buffer : List Nat) : Except Failure (List Nat × List Nat) :=
  if buffer.length = 0 then
    if p.length = 0 then .ok (p, buffer) else .error (.err .EOF)
  else .ok (buffer.take p.length ++ p.drop buffer.length, buffer.drop p.length)

/-! ## Data model (`image/color`, `github.com/faiface/pixel`, `types.go`) -/

/-- `color.RGBA`: four `uint8` channels. -/
structure RGBA where
  R : Nat
  G : Nat
  B : Nat
  A : Nat
  deriving DecidableEq

/-- `pixel.Vec`: two `float64` coordinates, as bit patterns. -/
structure Vec where
  X : Nat
  Y : Nat
  deriving DecidableEq

/-- `pixel.Rect`. -/
structure Rect where
  Min : Vec
  Max : Vec
  deriving DecidableEq

/-- `pixel.R(minX, minY, maxX, maxY)`: the rectangle with the given corners,
not normalised. -/
def R (minX minY maxX maxY : Nat) : Rect := ⟨⟨minX, minY⟩, ⟨maxX, maxY⟩⟩

/-- `pixel.PictureData`. -/
structure PictureData where
  Pix : List RGBA
  Stride : Int
  Rect : Rect
  deriving DecidableEq

/-- `AnimationData` of `types.go`. -/
structure AnimationData where
  Spritesheet : List Nat
  Frames : List Rect
  Durations : List Int
  deriving DecidableEq

/-! ## picture.go -/

/-- The loop `for _, pix := range picData.Pix` of `PictureDataToBytes`. -/
def writePixels : List RGBA → List Nat → Except Failure (List Nat)
  | [], buffer => .ok buffer
  | pix :: rest, buffer => do
      let buffer ← binaryWriteUint8 buffer pix.R
      let buffer ← binaryWriteUint8 buffer pix.G
      let buffer ← binaryWriteUint8 buffer pix.B
      let buffer ← binaryWriteUint8 buffer pix.A
      writePixels rest buffer

/-- `PictureDataToBytes` of `picture.go`. -/
def PictureDataToBytes (picData : PictureData) : Except Failure (List Nat) := do
  let buffer : List Nat := []
  let buffer ← binaryWriteInt32 buffer (int32OfInt (picData.Pix.length : Int))
  let buffer ← writePixels picData.Pix buffer
  let buffer ← binaryWriteInt32 buffer (int32OfInt picData.Stride)
  let buffer ← binaryWriteFloat64 buffer picData.Rect.Min.X
  let buffer ← binaryWriteFloat64 buffer picData.Rect.Min.Y
  let buffer ← binaryWriteFloat64 buffer picData.Rect.Max.X
  let buffer ← binaryWriteFloat64 buffer picData.Rect.Max.Y
  pure buffer

/-- The loop `for i := 0; i < int(picLength); i++` of `PictureDataFromBytes`,
with the number of iterations left as first argument. -/
def readPixels : Nat → List Nat → List RGBA → Except Failure (List RGBA × List Nat)
  | 0, buffer, pixels => .ok (pixels, buffer)
  | n + 1, buffer, pixels => do
      let (r, buffer) ← binaryReadUint8 buffer
      let (g, buffer) ← binaryReadUint8 buffer
      let (b, buffer) ← binaryReadUint8 buffer
      let (a, buffer) ← binaryReadUint8 buffer
      readPixels n buffer (pixels ++ [⟨r, g, b, a⟩])

/-- `PictureDataFromBytes` of `picture.go`. -/
def PictureDataFromBytes (data : List Nat) : Except Failure PictureData := do
  let buffer := data
  let (picLength, buffer) ← binaryReadInt32 buffer
  let (pixels, buffer) ← readPixels picLength.toNat buffer []
  let (picStride, buffer) ← binaryReadInt32 buffer
  let (minX, buffer) ← binaryReadFloat64 buffer
  let (minY, buffer) ← binaryReadFloat64 buffer
  let (maxX, buffer) ← binaryReadFloat64 buffer
  let (maxY, buffer) ← binaryReadFloat64 buffer
  let _ := buffer
  pure { Pix := pixels, Stride := picStride, Rect := R minX minY maxX maxY }

/-! ## animation.go -/

/-- The loop `for _, frame := range anim.Frames` of `AnimationDataToBytes`. -/
def writeFrames : List Rect → List Nat → Except Failure (List Nat)
  | [], buffer => .ok buffer
  | frame :: rest, buffer => do
      let buffer ← binaryWriteFloat64 buffer frame.Min.X
      let buffer ← binaryWriteFloat64 buffer frame.Min.Y
      let buffer ← binaryWriteFloat64 buffer frame.Max.X
      let buffer ← binaryWriteFloat64 buffer frame.Max.Y
      writeFrames rest buffer

/-- The loop `for _, duration := range anim.Durations` of `AnimationDataToBytes`. -/
def writeDurations : List Int → List Nat → Except Failure (List Nat)
  | [], buffer => .ok buffer
  | duration :: rest, buffer => do
      let buffer ← binaryWriteInt32 buffer duration
      writeDurations rest buffer

/-- `AnimationDataToBytes` of `animation.go`. -/
def AnimationDataToBytes (anim : AnimationData) : Except Failure (List Nat) := do
  let buffer : List Nat := []
  let buffer ← binaryWriteInt32 buffer (int32OfInt (anim.Spritesheet.length : Int))
  let buffer ← bufferWriteString buffer anim.Spritesheet
  let buffer ← binaryWriteInt32 buffer (int32OfInt (anim.Frames.length : Int))
  let buffer ← writeFrames anim.Frames buffer
  let buffer ← writeDurations anim.Durations buffer
  pure buffer

/-- The first loop `for i := int32(0); i < frameCount; i++` of
`AnimationDataFromBytes`, with the number of iterations left as first argument. -/
def readFrames : Nat → List Nat → List Rect → Except Failure (List Rect × List Nat)
  | 0, buffer, frames => .ok (frames, buffer)
  | n + 1, buffer, frames => do
      let (minX, buffer) ← binaryReadFloat64 buffer
      let (minY, buffer) ← binaryReadFloat64 buffer
      let (maxX, buffer) ← binaryReadFloat64 buffer
      let (maxY, buffer) ← binaryReadFloat64 buffer
      readFrames n buffer (frames ++ [R minX minY maxX maxY])

/-- The second loop `for i := int32(0); i < frameCount; i++` of
`AnimationDataFromBytes`, with the number of iterations left as first argument. -/
def readDurations : Nat → List Nat → List Int → Except Failure (List Int × List Nat)
  | 0, buffer, durations => .ok (durations, buffer)
  | n + 1, buffer, durations => do
      let (duration, buffer) ← binaryReadInt32 buffer
      readDurations n buffer (durations ++ [duration])

/-- `AnimationDataFromBytes` of `animation.go`. -/
def AnimationDataFromBytes (data : List Nat) : Except Failure AnimationData := do
  let buffer := data
  let (nameLength, buffer) ← binaryReadInt32 buffer
  let nameBytes ← makeBytes nameLength
  let (nameBytes, buffer) ← bufferRead nameBytes buffer
  let spritesheetName := nameBytes
  let (frameCount, buffer) ← binaryReadInt32 buffer
  let (frames, buffer) ← readFrames frameCount.toNat buffer []
  let (durations, buffer) ← readDurations frameCount.toNat buffer []
  let _ := buffer
  pure { Spritesheet := spritesheetName, Frames := frames, Durations := durations }

/-! ## header.go -/

/-- The bytes of a string literal made of ASCII characters. -/
def asciiBytes (s : String) : List Nat := s.toList.map Char.toNat

/-- `AnimationKey` of `header.go`. -/
def AnimationKey (key : List Nat) : List Nat := asciiBytes "anim:" ++ key

/-- `TagKey` of `header.go`. -/
def TagKey (key : List Nat) : List Nat := asciiBytes "tag:" ++ key

/-! ## The byte layout as the format description words it -/

/-- The `w` bytes of `u` in big-endian order: most significant byte first,
least significant byte last. -/
def bigEndian : Nat → Nat → List Nat
  | 0, _ => []
  | w + 1, u => bigEndian w (u / 256) ++ [u % 256]

/-- A signed integer as a big-endian signed 32-bit integer: the four bytes of
its two's complement representation. -/
def layoutInt32 (v : Int) : List Nat := bigEndian 4 (v % 2 ^ 32).toNat

/-- A 64-bit float as the eight big-endian bytes of its bit pattern. -/
def layoutFloat64 (bits : Nat) : List Nat := bigEndian 8 bits

/-- One pixel: the four bytes R, G, B, A. -/
def layoutPixel (pix : RGBA) : List Nat := [pix.R, pix.G, pix.B, pix.A]

/-- One rectangle: minX, minY, maxX, maxY, eight bytes each. -/
def layoutRect (r : Rect) : List Nat :=
  layoutFloat64 r.Min.X ++ layoutFloat64 r.Min.Y ++ layoutFloat64 r.Max.X ++
    layoutFloat64 r.Max.Y

/-- The picture layout: pixel count, the pixels in sequence order, stride,
rectangle; no padding. -/
def pictureLayout (p : PictureData) : List Nat :=
  layoutInt32 (p.Pix.length : Int) ++ (p.Pix.map layoutPixel).flatten ++
    layoutInt32 p.Stride ++ layoutRect p.Rect

/-- The animation layout: name length, raw name bytes, frame count, the
frames in order, the durations in order. -/
def animationLayout (a : AnimationData) : List Nat :=
  layoutInt32 (a.Spritesheet.length : Int) ++ a.Spritesheet ++
    layoutInt32 (a.Frames.length : Int) ++ (a.Frames.map layoutRect).flatten ++
    (a.Durations.map layoutInt32).flatten

/-! ## Well-formed values of the Go types -/

/-- An `int32` value. -/
def IsInt32 (v : Int) : Prop := -2 ^ 31 ≤ v ∧ v < 2 ^ 31

instance (v : Int) : Decidable (IsInt32 v) := by unfold IsInt32; infer_instance

/-- A `float64` bit pattern. -/
def IsFloat64 (bits : Nat) : Prop := bits < 2 ^ 64

instance (bits : Nat) : Decidable (IsFloat64 bits) := by unfold IsFloat64; infer_instance

/-- A `pixel.Rect` value: four `float64` bit patterns. -/
def Rect.WF (r : Rect) : Prop :=
  IsFloat64 r.Min.X ∧ IsFloat64 r.Min.Y ∧ IsFloat64 r.Max.X ∧ IsFloat64 r.Max.Y

instance (r : Rect) : Decidable r.WF := by unfold Rect.WF; infer_instance

/-- A byte slice: every element is a `uint8`. -/
def IsBytes (data : List Nat) : Prop := ∀ b ∈ data, b < 256

instance (data : List Nat) : Decidable (IsBytes data) := by unfold IsBytes; infer_instance

/-- The signed 32-bit integer held big-endian by the first four bytes of `data`:
the declared pixel count of a picture, the declared name length of an
animation. -/
def leadingInt32 (data : List Nat) : Int := int32OfUint32 (beUint32 (data.take 4))

/-- The signed 32-bit integer held big-endian by the four bytes of `data` that
follow the leading integer and a name of the length it declares: the declared
frame count of an animation. -/
def frameCountField (data : List Nat) : Int :=
  int32OfUint32 (beUint32 (((data.drop 4).drop (leadingInt32 data).toNat).take 4))

/-- Scenario A of the format description: two pixels, stride 2, rectangle
`(0, 0, 2, 1)`; `2.0` and `1.0` are given by their bit patterns. -/
def scenarioA : PictureData :=
  { Pix := [⟨255, 0, 0, 255⟩, ⟨0, 255, 0, 128⟩]
    Stride := 2
    Rect := R 0 0 0x4000000000000000 0x3FF0000000000000 }

/-- Scenario B of the format description: spritesheet `"hero"`, frames
`(0,0,32,32)` and `(32,0,64,32)`, durations 100 and 150; `32.0` and `64.0` are
given by their bit patterns. -/
def scenarioB : AnimationData :=
  { Spritesheet := asciiBytes "hero"
    Frames := [R 0 0 0x4040000000000000 0x4040000000000000,
      R 0x4040000000000000 0 0x4050000000000000 0x4040000000000000]
    Durations := [100, 150] }

/-- A picture with no pixel, a negative stride and a rectangle whose minimum
exceeds its maximum (`2.0` and `1.0` by their bit patterns). -/
def degeneratePicture : PictureData :=
  { Pix := []
    Stride := -3
    Rect := R 0x4000000000000000 0x3FF0000000000000 0 0 }

/-- An animation whose spritesheet name is `2^32` zero bytes long, with no
frame and no duration. -/
def longNameAnimation : AnimationData :=
  { Spritesheet := List.replicate (2 ^ 32) 0
    Frames := []
    Durations := [] }

/-- The encoding of scenario B, byte for byte. -/
def scenarioBBytes : List Nat :=
  [0, 0, 0, 4, 104, 101, 114, 111, 0, 0, 0, 2,
    0, 0, 0, 0, 0, 0, 0, 0, 0, 0, 0, 0, 0, 0, 0, 0,
    64, 64, 0, 0, 0, 0, 0, 0, 64, 64, 0, 0, 0, 0, 0, 0,
    64, 64, 0, 0, 0, 0, 0, 0, 0, 0, 0, 0, 0, 0, 0, 0,
    64, 80, 0, 0, 0, 0, 0, 0, 64, 64, 0, 0, 0, 0, 0, 0,
    0, 0, 0, 100, 0, 0, 0, 150]

/-- The animation with an empty name, no frame and no duration. -/
def emptyAnimation : AnimationData :=
  { Spritesheet := []
    Frames := []
    Durations := [] }

/-- The picture with no pixel, stride 0 and the rectangle `(0, 0, 0, 0)`. -/
def emptyPicture : PictureData :=
  { Pix := []
    Stride := 0
    Rect := R 0 0 0 0 }

/-- An animation whose spritesheet name is `2^32` zero bytes long, with one
frame and no duration. -/
def longNameOneFrame : AnimationData :=
  { Spritesheet := List.replicate (2 ^ 32) 0
    Frames := [R 0 0 0 0]
    Durations := [] }

/-- An animation whose spritesheet name is `2^32` zero bytes long, with no
frame and one duration. -/
def longNameOneDuration : AnimationData :=
  { Spritesheet := List.replicate (2 ^ 32) 0
    Frames := []
    Durations := [5] }

/-- A picture of `2^32` black transparent pixels with stride 5. -/
def hugePicture : PictureData :=
  { Pix := List.replicate (2 ^ 32) ⟨0, 0, 0, 0⟩
    Stride := 5
    Rect := R 0 0 0 0 }

/-- Scenario B with a third duration. -/
def scenarioBSurplus : AnimationData :=
  { Spritesheet := asciiBytes "hero"
    Frames := [R 0 0 0x4040000000000000 0x4040000000000000,
      R 0x4040000000000000 0 0x4050000000000000 0x4040000000000000]
    Durations := [100, 150, 200] }

/-- Scenario B with its second duration missing. -/
def scenarioBShort : AnimationData :=
  { Spritesheet := asciiBytes "hero"
    Frames := [R 0 0 0x4040000000000000 0x4040000000000000,
      R 0x4040000000000000 0 0x4050000000000000 0x4040000000000000]
    Durations := [100] }

/-- Scenario A with a stride that does not fit 32 bits, `2^32 + 2`. -/
def wideStridePicture : PictureData :=
  { Pix := [⟨255, 0, 0, 255⟩, ⟨0, 255, 0, 128⟩]
    Stride := 2 ^ 32 + 2
    Rect := R 0 0 0x4000000000000000 0x3FF0000000000000 }

/-! ## IEEE 754 binary64 arithmetic, for `GetSpritesheetFrames`

The codec only moves bit patterns; `GetSpritesheetFrames` computes with
`float64` values. A value is NaN, an infinity, or a finite number
`(-1)^neg * m * 2^e`, kept with `m` odd (or `m = 0`, `e = 0` for the two
zeros). Every operation computes the exact result and rounds it once, to
nearest with ties to even, as Go's `+`, `-`, `/` and conversions do. -/

/-- A `float64` value. -/
inductive Float64 where
  | nan
  | inf (neg : Bool)
  | fin (neg : Bool) (m : Nat) (e : Int)
  deriving DecidableEq

/-- The number of binary digits of `n` (0 for 0), with the number of steps
bounded by the first argument. -/
def bitLengthAux : Nat → Nat → Nat
  | 0, _ => 0
  | fuel + 1, n => if n = 0 then 0 else bitLengthAux fuel (n / 2) + 1

/-- The number of binary digits of `n`: 0 for 0, `⌊log₂ n⌋ + 1` otherwise. -/
def bitLength (n : Nat) : Nat := bitLengthAux n n

/-- The finite value `(-1)^neg * m * 2^e` with the factors 2 of `m` moved into
the exponent, at most as many as the first argument. -/
def normalizeAux : Nat → Bool → Nat → Int → Float64
  | 0, neg, m, e => .fin neg m e
  | fuel + 1, neg, m, e =>
      if m = 0 then .fin neg 0 0
      else if m % 2 = 0 then normalizeAux fuel neg (m / 2) (e + 1)
      else .fin neg m e

/-- The finite value `(-1)^neg * m * 2^e` in the form kept by `Float64`. -/
def normalize (neg : Bool) (m : Nat) (e : Int) : Float64 := normalizeAux (m + 1) neg m e

/-- The integer nearest to `n / d`, the even one on a tie (`d > 0`). -/
def roundHalfEven (n d : Nat) : Nat :=
  let q := n / d
  let r := n % d
  if 2 * r < d then q
  else if d < 2 * r then q + 1
  else if q % 2 = 0 then q else q + 1

/-- The integer `⌊log₂ (num / den)⌋`, for positive `num` and `den`. -/
def floorLog2Ratio (num den : Nat) : Int :=
  let d : Int := (bitLength num : Int) - (bitLength den : Int)
  if 0 ≤ d then
    if den * 2 ^ d.toNat ≤ num then d else d - 1
  else
    if den ≤ num * 2 ^ (-d).toNat then d else d - 1

/-- The exact number `(-1)^neg * (num / den) * 2^e` (`num`, `den` positive)
rounded to a `float64`: 53 significant bits down to the exponent `-1022`, the
fixed quantum `2^-1074` below (subnormal numbers, a zero when nothing is left),
nearest with ties to even, an infinity from `2^1024` on. -/
def Float64.round (neg : Bool) (num den : Nat) (e : Int) : Float64 :=
  let bigE := floorLog2Ratio num den + e
  let k := max bigE (-1022) - 52
  let s := e - k
  let m :=
    if 0 ≤ s then roundHalfEven (num * 2 ^ s.toNat) den
    else roundHalfEven num (den * 2 ^ (-s).toNat)
  if 1024 < (bitLength m : Int) + k then .inf neg else normalize neg m k

/-- The integer `(-1)^neg * m`. -/
def signedInt (neg : Bool) (m : Nat) : Int := if neg then -(m : Int) else (m : Int)

/-- The operator `+` on `float64`. An exact sum zero is `+0`, except that
`(-0) + (-0)` is `-0`. -/
def Float64.add : Float64 → Float64 → Float64
  | .nan, _ => .nan
  | _, .nan => .nan
  | .inf a, .inf b => if a = b then .inf a else .nan
  | .inf a, .fin _ _ _ => .inf a
  | .fin _ _ _, .inf b => .inf b
  | .fin sx mx ex, .fin sy my ey =>
      let emin := min ex ey
      let s : Int := signedInt sx (mx * 2 ^ (ex - emin).toNat) +
        signedInt sy (my * 2 ^ (ey - emin).toNat)
      if s = 0 then (if sx = sy then .fin sx 0 0 else .fin false 0 0)
      else Float64.round (decide (s < 0)) s.natAbs 1 emin

/-- The unary operator `-` on `float64`. -/
def Float64.neg : Float64 → Float64
  | .nan => .nan
  | .inf a => .inf (!a)
  | .fin s m e => .fin (!s) m e

/-- The operator `-` on `float64`: `x - y` is `x + (-y)`. -/
def Float64.sub (x y : Float64) : Float64 := x.add y.neg

/-- The operator `/` on `float64`; a division by zero gives an infinity, or NaN
for `0 / 0`. -/
def Float64.div : Float64 → Float64 → Float64
  | .nan, _ => .nan
  | _, .nan => .nan
  | .inf _, .inf _ => .nan
  | .inf a, .fin b _ _ => .inf (xor a b)
  | .fin a _ _, .inf b => .fin (xor a b) 0 0
  | .fin sx mx ex, .fin sy my ey =>
      if my = 0 then (if mx = 0 then .nan else .inf (xor sx sy))
      else if mx = 0 then .fin (xor sx sy) 0 0
      else Float64.round (xor sx sy) mx my (ex - ey)

/-- The operator `<` on `float64`: false when an operand is NaN; the two zeros
are equal. -/
def Float64.lt : Float64 → Float64 → Bool
  | .nan, _ => false
  | _, .nan => false
  | .inf a, .inf b => a && !b
  | .inf a, .fin _ _ _ => a
  | .fin _ _ _, .inf b => !b
  | .fin sx mx ex, .fin sy my ey =>
      let emin := min ex ey
      decide (signedInt sx (mx * 2 ^ (ex - emin).toNat) <
        signedInt sy (my * 2 ^ (ey - emin).toNat))

/-- The operator `<=` on `float64`: false when an operand is NaN. -/
def Float64.le : Float64 → Float64 → Bool
  | .nan, _ => false
  | _, .nan => false
  | .inf a, .inf b => a || !b
  | .inf a, .fin _ _ _ => a
  | .fin _ _ _, .inf b => !b
  | .fin sx mx ex, .fin sy my ey =>
      let emin := min ex ey
      decide (signedInt sx (mx * 2 ^ (ex - emin).toNat) ≤
        signedInt sy (my * 2 ^ (ey - emin).toNat))

/-- The conversion `float64(n)` of an integer. -/
def Float64.ofInt (n : Int) : Float64 :=
  if n = 0 then .fin false 0 0 else Float64.round (decide (n < 0)) n.natAbs 1 0

/-- A whole-number literal is the `float64` of that number. -/
instance : OfNat Float64 n := ⟨Float64.ofInt n⟩

/-! ## Frame tiling (`GetSpritesheetFrames` of `animation.go`) -/

/-- A `pixel.Vec` by the values of its coordinates. -/
structure FloatVec where
  X : Float64
  Y : Float64
  deriving DecidableEq

/-- A `pixel.Rect` by the values of its coordinates. -/
structure FloatRect where
  Min : FloatVec
  Max : FloatVec
  deriving DecidableEq

/-- `pixel.R` on values: no normalisation. -/
def floatR (minX minY maxX maxY : Float64) : FloatRect := ⟨⟨minX, minY⟩, ⟨maxX, maxY⟩⟩

/-- `Rect.W()`: `r.Max.X - r.Min.X`. -/
def FloatRect.W (r : FloatRect) : Float64 := r.Max.X.sub r.Min.X

/-- `Rect.H()`: `r.Max.Y - r.Min.Y`. -/
def FloatRect.H (r : FloatRect) : Float64 := r.Max.Y.sub r.Min.Y

/-- The loop `for x := 0.0; x < pixelWidth; x += dw` of `GetSpritesheetFrames`,
from the current `x`, with a bound on the number of tests of its condition;
`none` when the bound is reached. -/
def framesOfRow : Nat → Float64 → Float64 → Float64 → Float64 → Float64 → List FloatRect →
    Option (List FloatRect)
  | 0, _, _, _, _, _, _ => none
  | fuel + 1, x, pixelWidth, dw, y, dh, frames =>
      if x.lt pixelWidth then
        framesOfRow fuel (x.add dw) pixelWidth dw y dh
          (frames ++ [floatR x (y.sub dh) (x.add dw) y])
      else some frames

/-- The loop `for y := pixelHeight; y > 0; y -= dh` of `GetSpritesheetFrames`,
from the current `y`, with a bound `fuel` on the number of tests of its
condition and the bound `rowFuel` for each run of the inner loop. -/
def framesOfRows : Nat → Nat → Float64 → Float64 → Float64 → Float64 → List FloatRect →
    Option (List FloatRect)
  | 0, _, _, _, _, _, _ => none
  | fuel + 1, rowFuel, y, pixelWidth, dw, dh, frames =>
      if Float64.lt (.fin false 0 0) y then
        match framesOfRow rowFuel (.fin false 0 0) pixelWidth dw y dh frames with
        | none => none
        | some frames => framesOfRows fuel rowFuel (y.sub dh) pixelWidth dw dh frames
      else some frames

/-- `GetSpritesheetFrames` of `animation.go`, applied to the bounds of the
spritesheet (`spritesheet.Bounds()`, the field `Rect`), with a bound `fuel` on
the number of tests of each loop condition (a loop of the source may run
forever, as for a negative `width`). -/
def GetSpritesheetFrames (fuel : Nat) (bounds : FloatRect) (width height : Int) :
    Option (List FloatRect) :=
  let frames : List FloatRect := []
  let pixelWidth := bounds.W
  let pixelHeight := bounds.H
  let dw := pixelWidth.div (Float64.ofInt width)
  let dh := pixelHeight.div (Float64.ofInt height)
  framesOfRows fuel fuel pixelHeight pixelWidth dw dh frames

/-- The rectangle `f` lies inside the rectangle `b`. -/
def FloatRect.Inside (f b : FloatRect) : Prop :=
  b.Min.X.le f.Min.X = true ∧ f.Max.X.le b.Max.X = true ∧
    b.Min.Y.le f.Min.Y = true ∧ f.Max.Y.le b.Max.Y = true

instance (f b : FloatRect) : Decidable (f.Inside b) := by
  unfold FloatRect.Inside; infer_instance

/-- The cell in row `r`, counted from the top edge (the larger Y: the Y axis of
the `pixel` library points up), and column `c`, counted from the left edge, of
the rectangle with the corners `(x0, y0)` and `(x1, y1)`, in whole pixels,
divided evenly into `w` columns and `h` rows, for a grid that divides the width
and the height of the rectangle (the two quotients are then exact). -/
def tileCell (x0 y0 x1 y1 w h : Int) (r c : Nat) : FloatRect :=
  floatR (Float64.ofInt (x0 + c * ((x1 - x0) / w)))
    (Float64.ofInt (y1 - (r + 1) * ((y1 - y0) / h)))
    (Float64.ofInt (x0 + (c + 1) * ((x1 - x0) / w)))
    (Float64.ofInt (y1 - r * ((y1 - y0) / h)))

/-- The cells of the rectangle with the corners `(x0, y0)` and `(x1, y1)`
divided evenly into `w` columns and `h` rows, rows from top to bottom and,
within a row, columns from left to right. -/
def tiling (x0 y0 x1 y1 w h : Int) : List FloatRect :=
  ((List.range h.toNat).map fun r =>
    (List.range w.toNat).map fun c => tileCell x0 y0 x1 y1 w h r c).flatten

/-- A call that returns an error value to its caller (and so neither a result
nor a panic). -/
def ReturnsError {α : Type} (x : Except Failure α) : Prop := ∃ e, x = .error (.err e)

/-! ## Arithmetic of the integer conversions and of the byte order -/

theorem uint32OfInt_lt (v : Int) : uint32OfInt v < 2 ^ 32 := by
  unfold uint32OfInt
  omega

theorem uint32OfInt_int32OfInt (v : Int) : uint32OfInt (int32OfInt v) = (v % 2 ^ 32).toNat := by
  unfold uint32OfInt int32OfInt
  omega

theorem int32OfInt_of_isInt32 {v : Int} (h : IsInt32 v) : int32OfInt v = v := by
  unfold IsInt32 at h
  unfold int32OfInt
  omega

theorem int32OfUint32_uint32OfInt {v : Int} (h : IsInt32 v) :
    int32OfUint32 (uint32OfInt v) = v := by
  unfold IsInt32 at h
  unfold int32OfUint32 uint32OfInt
  split <;> omega

theorem isInt32_int32OfUint32 {u : Nat} (h : u < 2 ^ 32) : IsInt32 (int32OfUint32 u) := by
  unfold IsInt32 int32OfUint32
  split <;> omega

theorem length_putUint32 (v : Nat) : (putUint32 v).length = 4 := rfl

theorem length_putUint64 (v : Nat) : (putUint64 v).length = 8 := rfl

theorem beUint32_putUint32 {u : Nat} (h : u < 2 ^ 32) : beUint32 (putUint32 u) = u := by
  simp only [putUint32, beUint32]
  omega

theorem beUint64_putUint64 {u : Nat} (h : u < 2 ^ 64) : beUint64 (putUint64 u) = u := by
  simp only [putUint64, beUint64]
  omega

theorem bigEndian_four (u : Nat) : bigEndian 4 u = putUint32 u := by
  simp only [bigEndian, putUint32, List.nil_append, List.cons_append, List.cons.injEq,
    and_true]
  omega

theorem bigEndian_eight (u : Nat) : bigEndian 8 u = putUint64 u := by
  simp only [bigEndian, putUint64, List.nil_append, List.cons_append, List.cons.injEq,
    and_true]
  omega

theorem length_bigEndian (w u : Nat) : (bigEndian w u).length = w := by
  induction w generalizing u with
  | zero => rfl
  | succ w ih => simp [bigEndian, ih]

theorem layoutInt32_eq (v : Int) : layoutInt32 v = putUint32 (uint32OfInt (int32OfInt v)) := by
  rw [uint32OfInt_int32OfInt, layoutInt32, bigEndian_four]

theorem layoutInt32_eq_put (v : Int) : layoutInt32 v = putUint32 (uint32OfInt v) := by
  rw [layoutInt32, bigEndian_four, uint32OfInt]

theorem length_layoutInt32 (v : Int) : (layoutInt32 v).length = 4 := length_bigEndian _ _

theorem length_layoutFloat64 (bits : Nat) : (layoutFloat64 bits).length = 8 :=
  length_bigEndian _ _

theorem length_layoutRect (r : Rect) : (layoutRect r).length = 32 := by
  simp [layoutRect, length_layoutFloat64]

theorem length_flatten_layoutPixel (pix : List RGBA) :
    ((pix.map layoutPixel).flatten).length = 4 * pix.length := by
  induction pix with
  | nil => rfl
  | cons p ps ih => simp only [List.map_cons, List.flatten_cons, List.length_append, ih,
      layoutPixel, List.length_cons, List.length_nil]; omega

theorem length_flatten_layoutRect (frames : List Rect) :
    ((frames.map layoutRect).flatten).length = 32 * frames.length := by
  induction frames with
  | nil => rfl
  | cons p ps ih => simp only [List.map_cons, List.flatten_cons, List.length_append, ih,
      length_layoutRect, List.length_cons]; omega

theorem length_flatten_layoutInt32 (ds : List Int) :
    ((ds.map layoutInt32).flatten).length = 4 * ds.length := by
  induction ds with
  | nil => rfl
  | cons p ps ih => simp only [List.map_cons, List.flatten_cons, List.length_append, ih,
      length_layoutInt32, List.length_cons]; omega

/-! ## The writers in closed form -/

theorem writePixels_eq (pix : List RGBA) (buffer : List Nat) :
    writePixels pix buffer = .ok (buffer ++ (pix.map layoutPixel).flatten) := by
  induction pix generalizing buffer with
  | nil => simp [writePixels]
  | cons p ps ih =>
    simp [writePixels, binaryWriteUint8, bind, Except.bind, ih, layoutPixel]

theorem writeFrames_eq (frames : List Rect) (buffer : List Nat) :
    writeFrames frames buffer = .ok (buffer ++ (frames.map layoutRect).flatten) := by
  induction frames generalizing buffer with
  | nil => simp [writeFrames]
  | cons p ps ih =>
    simp [writeFrames, binaryWriteFloat64, bind, Except.bind, ih, layoutRect, layoutFloat64,
      bigEndian_eight]

theorem writeDurations_eq (ds : List Int) (buffer : List Nat) :
    writeDurations ds buffer = .ok (buffer ++ (ds.map (fun d => putUint32 (uint32OfInt d))).flatten) := by
  induction ds generalizing buffer with
  | nil => simp [writeDurations]
  | cons p ps ih =>
    simp [writeDurations, binaryWriteInt32, bind, Except.bind, ih]

theorem map_putUint32_eq (ds : List Int) :
    ds.map (fun d => putUint32 (uint32OfInt d)) = ds.map layoutInt32 := by
  apply List.map_congr_left
  intro d _
  exact (layoutInt32_eq_put d).symm

/-- The picture encoder writes the picture layout, for every picture. -/
theorem PictureDataToBytes_eq (p : PictureData) :
    PictureDataToBytes p = .ok (pictureLayout p) := by
  simp [PictureDataToBytes, binaryWriteInt32, binaryWriteFloat64, bind, Except.bind,
    writePixels_eq, pictureLayout, layoutRect, layoutFloat64, bigEndian_eight, layoutInt32_eq,
    pure, Except.pure]

/-- The animation encoder writes the animation layout, for every animation. -/
theorem AnimationDataToBytes_eq (a : AnimationData) :
    AnimationDataToBytes a = .ok (animationLayout a) := by
  simp [AnimationDataToBytes, binaryWriteInt32, bufferWriteString, bind, Except.bind,
    writeFrames_eq, writeDurations_eq, animationLayout, layoutInt32_eq,
    pure, Except.pure, map_putUint32_eq]

/-! ## The readers on a buffer that is long enough, and on one that is not -/

theorem readFull_of_le {n : Nat} {buffer : List Nat} (h : n ≤ buffer.length) :
    readFull n buffer = .ok (buffer.take n, buffer.drop n) := by
  simp [readFull, h]

theorem readFull_of_lt {n : Nat} {buffer : List Nat} (h : buffer.length < n) :
    ReturnsError (readFull n buffer) := by
  unfold readFull ReturnsError
  rw [if_neg (by omega)]
  split
  · exact ⟨_, rfl⟩
  · exact ⟨_, rfl⟩

theorem readFull_append (bs rest : List Nat) :
    readFull bs.length (bs ++ rest) = .ok (bs, rest) := by
  rw [readFull_of_le (by simp)]
  simp

theorem returnsError_bind {α β : Type} {x : Except Failure α} (f : α → Except Failure β)
    (h : ReturnsError x) : ReturnsError (x >>= f) := by
  obtain ⟨e, rfl⟩ := h
  exact ⟨e, rfl⟩

theorem not_returnsError_ok {α : Type} (a : α) : ¬ ReturnsError (Except.ok a : Except Failure α) := by
  rintro ⟨e, h⟩
  cases h

theorem binaryReadUint8_of_le {buffer : List Nat} (h : 1 ≤ buffer.length) :
    binaryReadUint8 buffer = .ok ((buffer.take 1).headD 0, buffer.drop 1) := by
  simp [binaryReadUint8, readFull_of_le h, bind, Except.bind, pure, Except.pure]

theorem binaryReadUint8_of_lt {buffer : List Nat} (h : buffer.length < 1) :
    ReturnsError (binaryReadUint8 buffer) :=
  returnsError_bind _ (readFull_of_lt h)

theorem binaryReadInt32_of_le {buffer : List Nat} (h : 4 ≤ buffer.length) :
    binaryReadInt32 buffer =
      .ok (int32OfUint32 (beUint32 (buffer.take 4)), buffer.drop 4) := by
  simp [binaryReadInt32, readFull_of_le h, bind, Except.bind, pure, Except.pure]

theorem binaryReadInt32_of_lt {buffer : List Nat} (h : buffer.length < 4) :
    ReturnsError (binaryReadInt32 buffer) :=
  returnsError_bind _ (readFull_of_lt h)

theorem binaryReadFloat64_of_le {buffer : List Nat} (h : 8 ≤ buffer.length) :
    binaryReadFloat64 buffer = .ok (beUint64 (buffer.take 8), buffer.drop 8) := by
  simp [binaryReadFloat64, readFull_of_le h, bind, Except.bind, pure, Except.pure]

theorem binaryReadFloat64_of_lt {buffer : List Nat} (h : buffer.length < 8) :
    ReturnsError (binaryReadFloat64 buffer) :=
  returnsError_bind _ (readFull_of_lt h)

theorem binaryReadUint8_cons (b : Nat) (rest : List Nat) :
    binaryReadUint8 (b :: rest) = .ok (b, rest) := by
  rw [binaryReadUint8_of_le (by simp)]
  simp

theorem binaryReadInt32_put {v : Int} (h : IsInt32 v) (rest : List Nat) :
    binaryReadInt32 (putUint32 (uint32OfInt v) ++ rest) = .ok (v, rest) := by
  rw [binaryReadInt32_of_le (by simp [length_putUint32])]
  rw [List.take_left' (length_putUint32 _), List.drop_left' (length_putUint32 _),
    beUint32_putUint32 (uint32OfInt_lt v), int32OfUint32_uint32OfInt h]

theorem binaryReadInt32_layout {v : Int} (h : IsInt32 v) (rest : List Nat) :
    binaryReadInt32 (layoutInt32 v ++ rest) = .ok (v, rest) := by
  rw [layoutInt32_eq_put, binaryReadInt32_put h]

theorem binaryReadFloat64_layout {bits : Nat} (h : IsFloat64 bits) (rest : List Nat) :
    binaryReadFloat64 (layoutFloat64 bits ++ rest) = .ok (bits, rest) := by
  rw [layoutFloat64, bigEndian_eight, binaryReadFloat64_of_le (by simp [length_putUint64])]
  rw [List.take_left' (length_putUint64 _), List.drop_left' (length_putUint64 _),
    beUint64_putUint64 h]

theorem binaryReadUint8_nil : ReturnsError (binaryReadUint8 []) :=
  binaryReadUint8_of_lt (by simp)

/-! ## The loops of the decoders -/

theorem readPixels_layout (pix : List RGBA) (rest : List Nat) (acc : List RGBA) :
    readPixels pix.length ((pix.map layoutPixel).flatten ++ rest) acc = .ok (acc ++ pix, rest) := by
  induction pix generalizing acc with
  | nil => simp [readPixels]
  | cons p ps ih =>
    simp only [List.length_cons, List.map_cons, List.flatten_cons, layoutPixel, readPixels,
      List.cons_append, List.nil_append, binaryReadUint8_cons, bind, Except.bind]
    rw [ih]
    simp

theorem readPixels_of_lt (n : Nat) (buffer : List Nat) (acc : List RGBA)
    (h : buffer.length < 4 * n) : ReturnsError (readPixels n buffer acc) := by
  induction n generalizing buffer acc with
  | zero => simp at h
  | succ n ih =>
    rcases buffer with _ | ⟨b0, _ | ⟨b1, _ | ⟨b2, _ | ⟨b3, rest⟩⟩⟩⟩
    · exact returnsError_bind _ binaryReadUint8_nil
    · obtain ⟨e, he⟩ := binaryReadUint8_nil
      exact ⟨e, by simp [readPixels, binaryReadUint8_cons, he, bind, Except.bind]⟩
    · obtain ⟨e, he⟩ := binaryReadUint8_nil
      exact ⟨e, by simp [readPixels, binaryReadUint8_cons, he, bind, Except.bind]⟩
    · obtain ⟨e, he⟩ := binaryReadUint8_nil
      exact ⟨e, by simp [readPixels, binaryReadUint8_cons, he, bind, Except.bind]⟩
    · simp only [readPixels, binaryReadUint8_cons, bind, Except.bind]
      apply ih
      simp only [List.length_cons] at h
      omega

theorem readPixels_of_le (n : Nat) (buffer : List Nat) (acc : List RGBA)
    (h : 4 * n ≤ buffer.length) :
    ∃ pix, readPixels n buffer acc = .ok (acc ++ pix, buffer.drop (4 * n)) ∧ pix.length = n := by
  induction n generalizing buffer acc with
  | zero => exact ⟨[], by simp [readPixels], rfl⟩
  | succ n ih =>
    rcases buffer with _ | ⟨b0, _ | ⟨b1, _ | ⟨b2, _ | ⟨b3, rest⟩⟩⟩⟩
    · simp at h
    · simp at h; omega
    · simp at h; omega
    · simp at h; omega
    · simp only [List.length_cons] at h
      obtain ⟨pix, hp, hl⟩ := ih rest (acc ++ [⟨b0, b1, b2, b3⟩]) (by omega)
      refine ⟨⟨b0, b1, b2, b3⟩ :: pix, ?_, by simp [hl]⟩
      simp only [readPixels, binaryReadUint8_cons, bind, Except.bind]
      rw [hp, show 4 * (n + 1) = 4 * n + 4 by ring]
      simp

/-! ## PictureDataFromBytes: when it succeeds -/

theorem PictureDataFromBytes_of_lt_four {data : List Nat} (h : data.length < 4) :
    ReturnsError (PictureDataFromBytes data) :=
  returnsError_bind _ (binaryReadInt32_of_lt h)

theorem PictureDataFromBytes_of_short {data : List Nat} (h4 : 4 ≤ data.length)
    (h : data.length < 40 + 4 * (leadingInt32 data).toNat) :
    ReturnsError (PictureDataFromBytes data) := by
  unfold PictureDataFromBytes
  simp only [binaryReadInt32_of_le h4, bind, Except.bind]
  rw [← leadingInt32]
  rcases Nat.lt_or_ge (data.drop 4).length (4 * (leadingInt32 data).toNat) with h1 | h1
  · obtain ⟨e, he⟩ := readPixels_of_lt _ _ [] h1
    exact ⟨e, by simp only [he]⟩
  obtain ⟨pix, hp, -⟩ := readPixels_of_le _ _ [] h1
  simp only [hp]
  rw [List.length_drop] at h1
  generalize hb : List.drop (4 * (leadingInt32 data).toNat) (List.drop 4 data) = b1
  have hl1 : b1.length = data.length - 4 - 4 * (leadingInt32 data).toNat := by
    rw [← hb]; simp; omega
  rcases Nat.lt_or_ge b1.length 4 with h2 | h2
  · obtain ⟨e, he⟩ := binaryReadInt32_of_lt h2
    exact ⟨e, by simp only [he]⟩
  simp only [binaryReadInt32_of_le h2]
  rcases Nat.lt_or_ge (b1.drop 4).length 8 with h3 | h3
  · obtain ⟨e, he⟩ := binaryReadFloat64_of_lt h3
    exact ⟨e, by simp only [he]⟩
  simp only [binaryReadFloat64_of_le h3]
  rcases Nat.lt_or_ge ((b1.drop 4).drop 8).length 8 with h5 | h5
  · obtain ⟨e, he⟩ := binaryReadFloat64_of_lt h5
    exact ⟨e, by simp only [he]⟩
  simp only [binaryReadFloat64_of_le h5]
  rcases Nat.lt_or_ge (((b1.drop 4).drop 8).drop 8).length 8 with h6 | h6
  · obtain ⟨e, he⟩ := binaryReadFloat64_of_lt h6
    exact ⟨e, by simp only [he]⟩
  simp only [binaryReadFloat64_of_le h6]
  rcases Nat.lt_or_ge ((((b1.drop 4).drop 8).drop 8).drop 8).length 8 with h7 | h7
  · obtain ⟨e, he⟩ := binaryReadFloat64_of_lt h7
    exact ⟨e, by simp only [he]⟩
  exfalso
  simp only [List.length_drop] at h7
  omega

/-! ## Round trips on the layouts -/

theorem isInt32_length {α : Type} {l : List α} (h : l.length < 2 ^ 31) :
    IsInt32 (l.length : Int) := by
  unfold IsInt32
  omega

theorem PictureDataFromBytes_layout_append (p : PictureData) (tail : List Nat)
    (hn : p.Pix.length < 2 ^ 31) (hs : IsInt32 p.Stride) (hr : p.Rect.WF) :
    PictureDataFromBytes (pictureLayout p ++ tail) = .ok p := by
  obtain ⟨hr1, hr2, hr3, hr4⟩ := hr
  unfold PictureDataFromBytes pictureLayout layoutRect
  simp only [List.append_assoc, bind, Except.bind]
  rw [binaryReadInt32_layout (isInt32_length hn)]
  simp only [Int.toNat_ofNat]
  rw [readPixels_layout]
  simp only [List.nil_append]
  rw [binaryReadInt32_layout hs]
  simp only []
  rw [binaryReadFloat64_layout hr1]
  simp only []
  rw [binaryReadFloat64_layout hr2]
  simp only []
  rw [binaryReadFloat64_layout hr3]
  simp only []
  rw [binaryReadFloat64_layout hr4]
  rfl

theorem length_pictureLayout (p : PictureData) :
    (pictureLayout p).length = 40 + 4 * p.Pix.length := by
  simp only [pictureLayout, List.length_append, length_layoutInt32, length_flatten_layoutPixel,
    length_layoutRect]
  omega

/-! ## The loops of AnimationDataFromBytes -/

theorem readFrames_layout (frames : List Rect) (h : ∀ r ∈ frames, r.WF) (rest : List Nat)
    (acc : List Rect) :
    readFrames frames.length ((frames.map layoutRect).flatten ++ rest) acc =
      .ok (acc ++ frames, rest) := by
  induction frames generalizing acc with
  | nil => simp [readFrames]
  | cons r rs ih =>
    obtain ⟨h1, h2, h3, h4⟩ := h r (List.mem_cons_self _ _)
    simp only [List.length_cons, List.map_cons, List.flatten_cons, layoutRect, readFrames,
      List.append_assoc, bind, Except.bind]
    rw [binaryReadFloat64_layout h1]
    simp only []
    rw [binaryReadFloat64_layout h2]
    simp only []
    rw [binaryReadFloat64_layout h3]
    simp only []
    rw [binaryReadFloat64_layout h4]
    simp only []
    rw [ih (fun r hr => h r (List.mem_cons_of_mem _ hr))]
    simp [R]

theorem readDurations_layout (ds : List Int) (h : ∀ d ∈ ds, IsInt32 d) (rest : List Nat)
    (acc : List Int) :
    readDurations ds.length ((ds.map layoutInt32).flatten ++ rest) acc = .ok (acc ++ ds, rest) := by
  induction ds generalizing acc with
  | nil => simp [readDurations]
  | cons d ds ih =>
    simp only [List.length_cons, List.map_cons, List.flatten_cons, readDurations,
      List.append_assoc, bind, Except.bind]
    rw [binaryReadInt32_layout (h d (List.mem_cons_self _ _))]
    simp only []
    rw [ih (fun r hr => h r (List.mem_cons_of_mem _ hr))]
    simp

theorem readFrames_of_lt (n : Nat) (buffer : List Nat) (acc : List Rect)
    (h : buffer.length < 32 * n) : ReturnsError (readFrames n buffer acc) := by
  induction n generalizing buffer acc with
  | zero => simp at h
  | succ n ih =>
    simp only [readFrames, bind, Except.bind]
    rcases Nat.lt_or_ge buffer.length 8 with h1 | h1
    · obtain ⟨e, he⟩ := binaryReadFloat64_of_lt h1
      exact ⟨e, by simp only [he]⟩
    simp only [binaryReadFloat64_of_le h1]
    rcases Nat.lt_or_ge (buffer.drop 8).length 8 with h2 | h2
    · obtain ⟨e, he⟩ := binaryReadFloat64_of_lt h2
      exact ⟨e, by simp only [he]⟩
    simp only [binaryReadFloat64_of_le h2]
    rcases Nat.lt_or_ge ((buffer.drop 8).drop 8).length 8 with h3 | h3
    · obtain ⟨e, he⟩ := binaryReadFloat64_of_lt h3
      exact ⟨e, by simp only [he]⟩
    simp only [binaryReadFloat64_of_le h3]
    rcases Nat.lt_or_ge (((buffer.drop 8).drop 8).drop 8).length 8 with h4 | h4
    · obtain ⟨e, he⟩ := binaryReadFloat64_of_lt h4
      exact ⟨e, by simp only [he]⟩
    simp only [binaryReadFloat64_of_le h4]
    apply ih
    simp only [List.length_drop] at *
    omega

theorem readFrames_of_le (n : Nat) (buffer : List Nat) (acc : List Rect)
    (h : 32 * n ≤ buffer.length) :
    ∃ fr, readFrames n buffer acc = .ok (acc ++ fr, buffer.drop (32 * n)) ∧ fr.length = n := by
  induction n generalizing buffer acc with
  | zero => exact ⟨[], by simp [readFrames], rfl⟩
  | succ n ih =>
    have h1 : 8 ≤ buffer.length := by omega
    have h2 : 8 ≤ (buffer.drop 8).length := by simp only [List.length_drop]; omega
    have h3 : 8 ≤ ((buffer.drop 8).drop 8).length := by simp only [List.length_drop]; omega
    have h4 : 8 ≤ (((buffer.drop 8).drop 8).drop 8).length := by
      simp only [List.length_drop]; omega
    have h5 : 32 * n ≤ ((((buffer.drop 8).drop 8).drop 8).drop 8).length := by
      simp only [List.length_drop]; omega
    obtain ⟨fr, hf, hl⟩ := ih _ (acc ++ [R (beUint64 (buffer.take 8))
      (beUint64 ((buffer.drop 8).take 8)) (beUint64 (((buffer.drop 8).drop 8).take 8))
      (beUint64 ((((buffer.drop 8).drop 8).drop 8).take 8))]) h5
    refine ⟨R (beUint64 (buffer.take 8))
      (beUint64 ((buffer.drop 8).take 8)) (beUint64 (((buffer.drop 8).drop 8).take 8))
      (beUint64 ((((buffer.drop 8).drop 8).drop 8).take 8)) :: fr, ?_, by simp [hl]⟩
    simp only [readFrames, bind, Except.bind, binaryReadFloat64_of_le h1,
      binaryReadFloat64_of_le h2, binaryReadFloat64_of_le h3, binaryReadFloat64_of_le h4, hf]
    simp only [List.drop_drop, List.append_assoc, List.singleton_append]
    congr 3
    ring

theorem readDurations_of_lt (n : Nat) (buffer : List Nat) (acc : List Int)
    (h : buffer.length < 4 * n) : ReturnsError (readDurations n buffer acc) := by
  induction n generalizing buffer acc with
  | zero => simp at h
  | succ n ih =>
    simp only [readDurations, bind, Except.bind]
    rcases Nat.lt_or_ge buffer.length 4 with h1 | h1
    · obtain ⟨e, he⟩ := binaryReadInt32_of_lt h1
      exact ⟨e, by simp only [he]⟩
    simp only [binaryReadInt32_of_le h1]
    apply ih
    simp only [List.length_drop] at *
    omega

theorem readDurations_of_le (n : Nat) (buffer : List Nat) (acc : List Int)
    (h : 4 * n ≤ buffer.length) :
    ∃ ds, readDurations n buffer acc = .ok (acc ++ ds, buffer.drop (4 * n)) ∧ ds.length = n := by
  induction n generalizing buffer acc with
  | zero => exact ⟨[], by simp [readDurations], rfl⟩
  | succ n ih =>
    have h1 : 4 ≤ buffer.length := by omega
    have h5 : 4 * n ≤ (buffer.drop 4).length := by simp only [List.length_drop]; omega
    obtain ⟨ds, hf, hl⟩ := ih _ (acc ++ [int32OfUint32 (beUint32 (buffer.take 4))]) h5
    refine ⟨int32OfUint32 (beUint32 (buffer.take 4)) :: ds, ?_, by simp [hl]⟩
    simp only [readDurations, bind, Except.bind, binaryReadInt32_of_le h1, hf]
    simp only [List.drop_drop, List.append_assoc, List.singleton_append]
    congr 3
    ring

/-! ## AnimationDataFromBytes: round trip on the layout, and truncation -/

theorem makeBytes_of_nonneg {n : Int} (h : 0 ≤ n) :
    makeBytes n = .ok (List.replicate n.toNat 0) := by
  simp [makeBytes, not_lt.mpr h]

theorem makeBytes_of_neg {n : Int} (h : n < 0) : makeBytes n = .error .panic := by
  simp [makeBytes, h]

theorem bufferRead_replicate (name rest : List Nat) (h : rest ≠ []) :
    bufferRead (List.replicate name.length 0) (name ++ rest) = .ok (name, rest) := by
  have hl : 0 < rest.length := List.length_pos.mpr h
  unfold bufferRead
  rw [if_neg (by simp only [List.length_append]; omega)]
  simp only [List.length_replicate, List.take_left', List.drop_left', List.length_append]
  rw [List.drop_eq_nil_of_le (by simp only [List.length_replicate]; omega)]
  simp

theorem AnimationDataFromBytes_layout_append (a : AnimationData) (tail : List Nat)
    (hL : a.Spritesheet.length < 2 ^ 31) (hF : a.Frames.length < 2 ^ 31)
    (hlen : a.Frames.length = a.Durations.length) (hw : ∀ r ∈ a.Frames, r.WF)
    (hd : ∀ d ∈ a.Durations, IsInt32 d) :
    AnimationDataFromBytes (animationLayout a ++ tail) = .ok a := by
  unfold AnimationDataFromBytes animationLayout
  simp only [List.append_assoc, bind, Except.bind]
  rw [binaryReadInt32_layout (isInt32_length hL)]
  simp only [makeBytes_of_nonneg (Int.natCast_nonneg _), Int.toNat_ofNat]
  rw [bufferRead_replicate _ _ (by
    intro h
    have := congrArg List.length h
    simp [length_layoutInt32] at this)]
  simp only []
  rw [binaryReadInt32_layout (isInt32_length hF)]
  simp only [Int.toNat_ofNat]
  rw [readFrames_layout _ hw]
  simp only [List.nil_append]
  rw [hlen, readDurations_layout _ hd]
  rfl

theorem length_animationLayout (a : AnimationData) :
    (animationLayout a).length =
      8 + a.Spritesheet.length + 32 * a.Frames.length + 4 * a.Durations.length := by
  simp only [animationLayout, List.length_append, length_layoutInt32,
    length_flatten_layoutRect, length_flatten_layoutInt32]
  omega

theorem AnimationDataFromBytes_of_lt_four {data : List Nat} (h : data.length < 4) :
    ReturnsError (AnimationDataFromBytes data) :=
  returnsError_bind _ (binaryReadInt32_of_lt h)

theorem AnimationDataFromBytes_of_neg {data : List Nat} (h4 : 4 ≤ data.length)
    (h : leadingInt32 data < 0) : AnimationDataFromBytes data = .error .panic := by
  unfold AnimationDataFromBytes
  simp only [binaryReadInt32_of_le h4, bind, Except.bind]
  rw [← leadingInt32, makeBytes_of_neg h]

theorem AnimationDataFromBytes_of_short_name {data : List Nat} (h4 : 4 ≤ data.length)
    (h0 : 0 ≤ leadingInt32 data) (h : data.length < 8 + (leadingInt32 data).toNat) :
    ReturnsError (AnimationDataFromBytes data) := by
  unfold AnimationDataFromBytes
  simp only [binaryReadInt32_of_le h4, bind, Except.bind]
  rw [← leadingInt32, makeBytes_of_nonneg h0]
  simp only [bufferRead, List.length_replicate, List.length_drop]
  by_cases hz : data.length - 4 = 0
  · rw [if_pos hz]
    by_cases hn : (leadingInt32 data).toNat = 0
    · rw [if_pos hn]
      obtain ⟨e, he⟩ := @binaryReadInt32_of_lt (List.drop 4 data)
        (by simp only [List.length_drop]; omega)
      exact ⟨e, by simp only [he]⟩
    · rw [if_neg hn]
      exact ⟨_, rfl⟩
  · rw [if_neg hz]
    obtain ⟨e, he⟩ := @binaryReadInt32_of_lt
      (List.drop (leadingInt32 data).toNat (List.drop 4 data))
      (by simp only [List.length_drop]; omega)
    exact ⟨e, by simp only [he]⟩

theorem AnimationDataFromBytes_of_short_frames {data : List Nat} (h4 : 4 ≤ data.length)
    (h0 : 0 ≤ leadingInt32 data) (h8 : 8 + (leadingInt32 data).toNat ≤ data.length)
    (h : data.length < 8 + (leadingInt32 data).toNat + 36 * (frameCountField data).toNat) :
    ReturnsError (AnimationDataFromBytes data) := by
  unfold AnimationDataFromBytes
  simp only [binaryReadInt32_of_le h4, bind, Except.bind]
  rw [← leadingInt32, makeBytes_of_nonneg h0]
  simp only [bufferRead, List.length_replicate, List.length_drop]
  rw [if_neg (by omega)]
  have hb : 4 ≤ (List.drop (leadingInt32 data).toNat (List.drop 4 data)).length := by
    simp only [List.length_drop]; omega
  simp only [binaryReadInt32_of_le hb]
  rw [← frameCountField]
  generalize hbd : List.drop 4 (List.drop (leadingInt32 data).toNat (List.drop 4 data)) = b1
  have hl1 : b1.length = data.length - 8 - (leadingInt32 data).toNat := by
    rw [← hbd]; simp only [List.length_drop]; omega
  rcases Nat.lt_or_ge b1.length (32 * (frameCountField data).toNat) with h1 | h1
  · obtain ⟨e, he⟩ := readFrames_of_lt _ _ [] h1
    exact ⟨e, by simp only [he]⟩
  obtain ⟨fr, hf, -⟩ := readFrames_of_le _ _ [] h1
  simp only [hf]
  obtain ⟨e, he⟩ := readDurations_of_lt (frameCountField data).toNat
    (List.drop (32 * (frameCountField data).toNat) b1) []
    (by simp only [List.length_drop]; omega)
  exact ⟨e, by simp only [he]⟩

/-! ## Strict prefixes of an encoding -/

theorem leadingInt32_layoutInt32_append {v : Int} (h : IsInt32 v) (rest : List Nat) :
    leadingInt32 (layoutInt32 v ++ rest) = v := by
  rw [leadingInt32, List.take_left' (length_layoutInt32 v), layoutInt32_eq_put,
    beUint32_putUint32 (uint32OfInt_lt v), int32OfUint32_uint32OfInt h]

theorem length_lt_of_strict {b bytes : List Nat} (hpre : b <+: bytes) (hne : b ≠ bytes) :
    b.length < bytes.length := by
  rcases Nat.lt_or_ge b.length bytes.length with h | h
  · exact h
  · exact absurd (hpre.eq_of_length (Nat.le_antisymm hpre.length_le h)) hne

theorem leadingInt32_of_strict {b bytes : List Nat} (hpre : b <+: bytes) (h4 : 4 ≤ b.length) :
    leadingInt32 b = leadingInt32 bytes := by
  obtain ⟨t, rfl⟩ := hpre
  rw [leadingInt32, leadingInt32, List.take_append_of_le_length h4]

theorem frameCountField_of_strict {b bytes : List Nat} (hpre : b <+: bytes)
    (h8 : 8 + (leadingInt32 b).toNat ≤ b.length) :
    frameCountField b = frameCountField bytes := by
  have hl := leadingInt32_of_strict hpre (by omega)
  obtain ⟨t, rfl⟩ := hpre
  rw [frameCountField, frameCountField, ← hl, List.drop_drop, List.drop_drop,
    List.drop_append_of_le_length (by omega),
    List.take_append_of_le_length (by simp only [List.length_drop]; omega)]

theorem PictureDataFromBytes_strict (p : PictureData) (hn : p.Pix.length < 2 ^ 31)
    {b : List Nat} (hpre : b <+: pictureLayout p) (hne : b ≠ pictureLayout p) :
    ReturnsError (PictureDataFromBytes b) := by
  have hlt := length_lt_of_strict hpre hne
  rw [length_pictureLayout] at hlt
  rcases Nat.lt_or_ge b.length 4 with h4 | h4
  · exact PictureDataFromBytes_of_lt_four h4
  · apply PictureDataFromBytes_of_short h4
    rw [leadingInt32_of_strict hpre h4]
    have : leadingInt32 (pictureLayout p) = (p.Pix.length : Int) := by
      unfold pictureLayout
      simp only [List.append_assoc]
      exact leadingInt32_layoutInt32_append (isInt32_length hn) _
    rw [this, Int.toNat_ofNat]
    exact hlt

theorem frameCountField_animationLayout (a : AnimationData)
    (hL : a.Spritesheet.length < 2 ^ 31) (hF : a.Frames.length < 2 ^ 31) :
    leadingInt32 (animationLayout a) = (a.Spritesheet.length : Int) ∧
      frameCountField (animationLayout a) = (a.Frames.length : Int) := by
  have h1 : leadingInt32 (animationLayout a) = (a.Spritesheet.length : Int) := by
    unfold animationLayout
    simp only [List.append_assoc]
    exact leadingInt32_layoutInt32_append (isInt32_length hL) _
  refine ⟨h1, ?_⟩
  rw [frameCountField, h1, Int.toNat_ofNat]
  unfold animationLayout
  simp only [List.append_assoc]
  rw [List.drop_left' (length_layoutInt32 _), List.drop_left' rfl, ← leadingInt32,
    leadingInt32_layoutInt32_append (isInt32_length hF)]

theorem AnimationDataFromBytes_strict (a : AnimationData)
    (hL : a.Spritesheet.length < 2 ^ 31) (hF : a.Frames.length < 2 ^ 31)
    (hlen : a.Frames.length = a.Durations.length)
    {b : List Nat} (hpre : b <+: animationLayout a) (hne : b ≠ animationLayout a) :
    ReturnsError (AnimationDataFromBytes b) := by
  have hlt := length_lt_of_strict hpre hne
  rw [length_animationLayout] at hlt
  obtain ⟨hl, hf⟩ := frameCountField_animationLayout a hL hF
  rcases Nat.lt_or_ge b.length 4 with h4 | h4
  · exact AnimationDataFromBytes_of_lt_four h4
  have hl2 := leadingInt32_of_strict hpre h4
  rw [hl] at hl2
  have h0 : 0 ≤ leadingInt32 b := by rw [hl2]; exact Int.natCast_nonneg _
  rcases Nat.lt_or_ge b.length (8 + (leadingInt32 b).toNat) with h8 | h8
  · exact AnimationDataFromBytes_of_short_name h4 h0 h8
  · apply AnimationDataFromBytes_of_short_frames h4 h0 h8
    rw [frameCountField_of_strict hpre h8, hf, hl2, Int.toNat_ofNat, Int.toNat_ofNat]
    omega

/-! ## An animation whose name length does not fit the length field -/

theorem animationLayout_longName :
    animationLayout longNameAnimation =
      [0, 0, 0, 0, 0, 0, 0, 0] ++ (List.replicate (2 ^ 32 - 4) 0 ++ [0, 0, 0, 0]) := by
  have hsplit := List.replicate_add 4 (2 ^ 32 - 4) (0 : Nat)
  have e : 4 + (2 ^ 32 - 4) = 2 ^ 32 := by norm_num
  rw [e] at hsplit
  have h1 : layoutInt32 ((2 ^ 32 : Nat) : Int) = [0, 0, 0, 0] := by decide
  have h2 : layoutInt32 ((0 : Nat) : Int) = [0, 0, 0, 0] := by decide
  have hs : longNameAnimation.Spritesheet = List.replicate (2 ^ 32) 0 := rfl
  have hf : longNameAnimation.Frames = [] := rfl
  have hd : longNameAnimation.Durations = [] := rfl
  rw [animationLayout, hs, hf, hd, List.length_replicate, List.length_nil, h1, h2, hsplit]
  generalize List.replicate (2 ^ 32 - 4) 0 = t
  simp

theorem length_animationLayout_longName :
    (animationLayout longNameAnimation).length = 8 + 2 ^ 32 := by
  have hs : longNameAnimation.Spritesheet = List.replicate (2 ^ 32) 0 := rfl
  have hf : longNameAnimation.Frames = [] := rfl
  have hd : longNameAnimation.Durations = [] := rfl
  rw [length_animationLayout, hs, hf, hd, List.length_replicate, List.length_nil,
    List.length_nil, Nat.mul_zero, Nat.add_zero]

/-! ## The decoders on a buffer that is long enough -/

theorem PictureDataFromBytes_of_le {data : List Nat} (h4 : 4 ≤ data.length)
    (h : 40 + 4 * (leadingInt32 data).toNat ≤ data.length) :
    ∃ p, PictureDataFromBytes data = .ok p ∧ p.Pix.length = (leadingInt32 data).toNat := by
  unfold PictureDataFromBytes
  simp only [binaryReadInt32_of_le h4, bind, Except.bind]
  rw [← leadingInt32]
  obtain ⟨pix, hp, hl⟩ := readPixels_of_le (leadingInt32 data).toNat (data.drop 4) []
    (by simp only [List.length_drop]; omega)
  simp only [hp]
  generalize hb : List.drop (4 * (leadingInt32 data).toNat) (List.drop 4 data) = b1
  have hl1 : b1.length = data.length - 4 - 4 * (leadingInt32 data).toNat := by
    rw [← hb]; simp only [List.length_drop]
  have h2 : 4 ≤ b1.length := by omega
  have h3 : 8 ≤ (b1.drop 4).length := by simp only [List.length_drop]; omega
  have h5 : 8 ≤ ((b1.drop 4).drop 8).length := by simp only [List.length_drop]; omega
  have h6 : 8 ≤ (((b1.drop 4).drop 8).drop 8).length := by simp only [List.length_drop]; omega
  have h7 : 8 ≤ ((((b1.drop 4).drop 8).drop 8).drop 8).length := by
    simp only [List.length_drop]; omega
  simp only [binaryReadInt32_of_le h2, binaryReadFloat64_of_le h3, binaryReadFloat64_of_le h5,
    binaryReadFloat64_of_le h6, binaryReadFloat64_of_le h7]
  exact ⟨_, rfl, by simpa using hl⟩

theorem ok_ne_of_returnsError {α : Type} {x : Except Failure α} {a : α}
    (h : ReturnsError x) : x ≠ .ok a := by
  rintro rfl
  exact not_returnsError_ok a h

theorem PictureDataFromBytes_ok_imp {data : List Nat} {p : PictureData}
    (h : PictureDataFromBytes data = .ok p) :
    4 ≤ data.length ∧ 40 + 4 * (leadingInt32 data).toNat ≤ data.length ∧
      p.Pix.length = (leadingInt32 data).toNat := by
  rcases Nat.lt_or_ge data.length 4 with h4 | h4
  · exact absurd h (ok_ne_of_returnsError (PictureDataFromBytes_of_lt_four h4))
  rcases Nat.lt_or_ge data.length (40 + 4 * (leadingInt32 data).toNat) with hs | hs
  · exact absurd h (ok_ne_of_returnsError (PictureDataFromBytes_of_short h4 hs))
  obtain ⟨q, hq, hl⟩ := PictureDataFromBytes_of_le h4 hs
  rw [h] at hq
  cases hq
  exact ⟨h4, hs, hl⟩

theorem bufferRead_of_le (p b : List Nat) (hp : 0 < b.length) (h : p.length ≤ b.length) :
    bufferRead p b = .ok (b.take p.length, b.drop p.length) := by
  unfold bufferRead
  rw [if_neg (by omega), List.drop_eq_nil_of_le h, List.append_nil]

theorem AnimationDataFromBytes_of_le {data : List Nat} (h4 : 4 ≤ data.length)
    (h0 : 0 ≤ leadingInt32 data)
    (h : 8 + (leadingInt32 data).toNat + 36 * (frameCountField data).toNat ≤ data.length) :
    ∃ a, AnimationDataFromBytes data = .ok a ∧
      a.Spritesheet = (data.drop 4).take (leadingInt32 data).toNat ∧
      a.Frames.length = (frameCountField data).toNat ∧
      a.Durations.length = (frameCountField data).toNat := by
  unfold AnimationDataFromBytes
  simp only [binaryReadInt32_of_le h4, bind, Except.bind]
  rw [← leadingInt32, makeBytes_of_nonneg h0]
  simp only []
  rw [bufferRead_of_le _ _ (by simp only [List.length_drop]; omega)
    (by simp only [List.length_drop, List.length_replicate]; omega)]
  simp only [List.length_replicate]
  have hb : 4 ≤ (List.drop (leadingInt32 data).toNat (List.drop 4 data)).length := by
    simp only [List.length_drop]; omega
  simp only [binaryReadInt32_of_le hb]
  rw [← frameCountField]
  generalize hbd : List.drop 4 (List.drop (leadingInt32 data).toNat (List.drop 4 data)) = b1
  have hl1 : b1.length = data.length - 8 - (leadingInt32 data).toNat := by
    rw [← hbd]; simp only [List.length_drop]; omega
  obtain ⟨fr, hf, hfl⟩ := readFrames_of_le (frameCountField data).toNat b1 [] (by omega)
  simp only [hf]
  obtain ⟨ds, hd, hdl⟩ := readDurations_of_le (frameCountField data).toNat
    (List.drop (32 * (frameCountField data).toNat) b1) []
    (by simp only [List.length_drop]; omega)
  simp only [hd]
  exact ⟨_, rfl, rfl, by simpa using hfl, by simpa using hdl⟩

theorem AnimationDataFromBytes_ok_imp {data : List Nat} {a : AnimationData}
    (h : AnimationDataFromBytes data = .ok a) :
    4 ≤ data.length ∧ 0 ≤ leadingInt32 data ∧
      8 + (leadingInt32 data).toNat + 36 * (frameCountField data).toNat ≤ data.length ∧
      a.Spritesheet = (data.drop 4).take (leadingInt32 data).toNat ∧
      a.Frames.length = (frameCountField data).toNat ∧
      a.Durations.length = (frameCountField data).toNat := by
  rcases Nat.lt_or_ge data.length 4 with h4 | h4
  · exact absurd h (ok_ne_of_returnsError (AnimationDataFromBytes_of_lt_four h4))
  rcases Int.lt_or_le (leadingInt32 data) 0 with h0 | h0
  · rw [AnimationDataFromBytes_of_neg h4 h0] at h
    cases h
  rcases Nat.lt_or_ge data.length (8 + (leadingInt32 data).toNat) with h8 | h8
  · exact absurd h (ok_ne_of_returnsError (AnimationDataFromBytes_of_short_name h4 h0 h8))
  rcases Nat.lt_or_ge data.length
    (8 + (leadingInt32 data).toNat + 36 * (frameCountField data).toNat) with hs | hs
  · exact absurd h (ok_ne_of_returnsError (AnimationDataFromBytes_of_short_frames h4 h0 h8 hs))
  obtain ⟨q, hq, hn, hf, hd⟩ := AnimationDataFromBytes_of_le h4 h0 hs
  rw [h] at hq
  cases hq
  exact ⟨h4, h0, hs, hn, hf, hd⟩

/-! ## Counts that do not fit the 32-bit count fields -/

theorem animationLayout_emptyAnimation :
    animationLayout emptyAnimation = [0, 0, 0, 0, 0, 0, 0, 0] := by decide

theorem pictureLayout_emptyPicture :
    pictureLayout emptyPicture = List.replicate 40 0 := by decide

theorem AnimationDataFromBytes_emptyAnimation_append (tail : List Nat) :
    AnimationDataFromBytes (animationLayout emptyAnimation ++ tail) = .ok emptyAnimation :=
  AnimationDataFromBytes_layout_append emptyAnimation tail (by decide) (by decide) rfl
    (by intro r hr; cases hr) (by intro d hd; cases hd)

theorem PictureDataFromBytes_emptyPicture_append (tail : List Nat) :
    PictureDataFromBytes (pictureLayout emptyPicture ++ tail) = .ok emptyPicture :=
  PictureDataFromBytes_layout_append emptyPicture tail (by decide) (by decide) (by decide)

/-- The layout of an animation whose name is `2^32` zero bytes starts with the
layout of the empty animation. -/
theorem animationLayout_replicate_name (frames : List Rect) (durations : List Int) :
    ∃ tail, animationLayout
        { Spritesheet := List.replicate (2 ^ 32) 0, Frames := frames, Durations := durations } =
      animationLayout emptyAnimation ++ tail := by
  have hsplit := List.replicate_add 4 (2 ^ 32 - 4) (0 : Nat)
  have e : 4 + (2 ^ 32 - 4) = 2 ^ 32 := by norm_num
  rw [e] at hsplit
  have h1 : layoutInt32 ((2 ^ 32 : Nat) : Int) = [0, 0, 0, 0] := by decide
  have h4 : List.replicate 4 (0 : Nat) = [0, 0, 0, 0] := rfl
  refine ⟨List.replicate (2 ^ 32 - 4) 0 ++ (layoutInt32 (frames.length : Int) ++
    ((frames.map layoutRect).flatten ++ (durations.map layoutInt32).flatten)), ?_⟩
  rw [animationLayout_emptyAnimation, animationLayout]
  simp only [List.length_replicate, h1]
  rw [hsplit, h4]
  generalize List.replicate (2 ^ 32 - 4) 0 = t
  simp only [List.append_assoc, List.cons_append, List.nil_append]

/-- The layout of a picture of `2^32` zero pixels starts with the layout of the
empty picture. -/
theorem pictureLayout_replicate_pix (stride : Int) (rect : Rect) :
    ∃ tail, pictureLayout
        { Pix := List.replicate (2 ^ 32) ⟨0, 0, 0, 0⟩, Stride := stride, Rect := rect } =
      pictureLayout emptyPicture ++ tail := by
  have hsplit := List.replicate_add 9 (2 ^ 32 - 9) ([0, 0, 0, 0] : List Nat)
  have e : 9 + (2 ^ 32 - 9) = 2 ^ 32 := by norm_num
  rw [e] at hsplit
  have h1 : layoutInt32 ((2 ^ 32 : Nat) : Int) = [0, 0, 0, 0] := by decide
  have h9 : (List.replicate 9 ([0, 0, 0, 0] : List Nat)).flatten = List.replicate 36 0 := rfl
  have h40 : (List.replicate 40 0 : List Nat) = [0, 0, 0, 0] ++ List.replicate 36 0 := rfl
  have hp : layoutPixel ⟨0, 0, 0, 0⟩ = [0, 0, 0, 0] := rfl
  refine ⟨(List.replicate (2 ^ 32 - 9) ([0, 0, 0, 0] : List Nat)).flatten ++
    (layoutInt32 stride ++ layoutRect rect), ?_⟩
  rw [pictureLayout_emptyPicture, pictureLayout]
  simp only [List.length_replicate, h1, List.map_replicate, hp]
  rw [hsplit, List.flatten_append, h9, h40]
  generalize (List.replicate (2 ^ 32 - 9) ([0, 0, 0, 0] : List Nat)).flatten = t
  simp only [List.append_assoc]

/-! ## Frames and durations of different numbers -/

theorem animationLayout_take_durations (a : AnimationData) (n : Nat) :
    animationLayout a =
      animationLayout { a with Durations := a.Durations.take n } ++
        ((a.Durations.drop n).map layoutInt32).flatten := by
  have h : (a.Durations.map layoutInt32).flatten =
      ((a.Durations.take n).map layoutInt32).flatten ++
        ((a.Durations.drop n).map layoutInt32).flatten := by
    rw [← List.flatten_append, ← List.map_append, List.take_append_drop]
  simp only [animationLayout, h, List.append_assoc]

theorem layoutInt32_int32OfInt (v : Int) : layoutInt32 (int32OfInt v) = layoutInt32 v := by
  unfold layoutInt32 int32OfInt
  congr 2
  omega

theorem pictureLayout_int32OfInt_stride (p : PictureData) :
    pictureLayout p = pictureLayout { p with Stride := int32OfInt p.Stride } := by
  simp only [pictureLayout, layoutInt32_int32OfInt]

theorem isInt32_int32OfInt (v : Int) : IsInt32 (int32OfInt v) := by
  unfold IsInt32 int32OfInt
  omega

theorem int32OfInt_eq (v : Int) : int32OfInt v = int32OfUint32 (v % 2 ^ 32).toNat := by
  unfold int32OfInt int32OfUint32
  split <;> omega

theorem int32OfInt_eq_self_iff (v : Int) : int32OfInt v = v ↔ -2 ^ 31 ≤ v ∧ v < 2 ^ 31 := by
  unfold int32OfInt
  omega

/-! ## The loops of GetSpritesheetFrames: a larger bound changes no result -/

theorem framesOfRow_fuel_mono (fuel k : Nat) (x pixelWidth dw y dh : Float64)
    (frames r : List FloatRect) (h : framesOfRow fuel x pixelWidth dw y dh frames = some r) :
    framesOfRow (fuel + k) x pixelWidth dw y dh frames = some r := by
  induction fuel generalizing x frames with
  | zero => simp [framesOfRow] at h
  | succ n ih =>
    rw [Nat.succ_add]
    simp only [framesOfRow] at h ⊢
    by_cases hx : x.lt pixelWidth = true
    · rw [if_pos hx] at h ⊢
      exact ih _ _ h
    · rw [if_neg hx] at h ⊢
      exact h

theorem framesOfRows_fuel_mono (fuel rowFuel k j : Nat) (y pixelWidth dw dh : Float64)
    (frames r : List FloatRect)
    (h : framesOfRows fuel rowFuel y pixelWidth dw dh frames = some r) :
    framesOfRows (fuel + k) (rowFuel + j) y pixelWidth dw dh frames = some r := by
  induction fuel generalizing y frames with
  | zero => simp [framesOfRows] at h
  | succ n ih =>
    rw [Nat.succ_add]
    simp only [framesOfRows] at h ⊢
    by_cases hy : Float64.lt (.fin false 0 0) y = true
    · rw [if_pos hy] at h ⊢
      cases hrow : framesOfRow rowFuel (.fin false 0 0) pixelWidth dw y dh frames with
      | none => rw [hrow] at h; simp at h
      | some fr =>
        rw [hrow] at h
        rw [framesOfRow_fuel_mono rowFuel j _ _ _ _ _ _ _ hrow]
        exact ih _ _ h
    · rw [if_neg hy] at h ⊢
      exact h

theorem GetSpritesheetFrames_fuel_mono (fuel fuel2 : Nat) (bounds : FloatRect)
    (width height : Int) (r : List FloatRect)
    (h : GetSpritesheetFrames fuel bounds width height = some r) (hle : fuel ≤ fuel2) :
    GetSpritesheetFrames fuel2 bounds width height = some r := by
  obtain ⟨k, rfl⟩ := Nat.exists_eq_add_of_le hle
  exact framesOfRows_fuel_mono fuel fuel k k _ _ _ _ _ _ h

/-! ## The number of binary digits -/

theorem bitLengthAux_zero (fuel : Nat) : bitLengthAux fuel 0 = 0 := by
  cases fuel <;> simp [bitLengthAux]

theorem bitLengthAux_spec (fuel n : Nat) (h : n ≤ fuel) :
    n < 2 ^ bitLengthAux fuel n ∧ (n ≠ 0 → 2 ^ bitLengthAux fuel n ≤ 2 * n) := by
  induction fuel generalizing n with
  | zero =>
    obtain rfl : n = 0 := by omega
    simp [bitLengthAux]
  | succ f ih =>
    by_cases hn : n = 0
    · subst hn
      simp [bitLengthAux]
    · simp only [bitLengthAux, if_neg hn]
      obtain ⟨h1, h2⟩ := ih (n / 2) (by omega)
      have hdiv : n = 2 * (n / 2) + n % 2 := (Nat.div_add_mod n 2).symm
      have hmod : n % 2 < 2 := Nat.mod_lt _ (by decide)
      refine ⟨?_, fun _ => ?_⟩
      · rw [pow_succ]
        omega
      · rw [pow_succ]
        by_cases hz : n / 2 = 0
        · rw [hz, bitLengthAux_zero]
          simp
          omega
        · have := h2 hz
          omega

theorem lt_two_pow_bitLength (n : Nat) : n < 2 ^ bitLength n :=
  (bitLengthAux_spec n n le_rfl).1

theorem two_pow_bitLength_le (n : Nat) (h : n ≠ 0) : 2 ^ bitLength n ≤ 2 * n :=
  (bitLengthAux_spec n n le_rfl).2 h

theorem bitLength_pos (n : Nat) (h : n ≠ 0) : 0 < bitLength n := by
  by_contra hc
  have h0 : bitLength n = 0 := by omega
  have := lt_two_pow_bitLength n
  rw [h0] at this
  omega

/-- The number of binary digits is the only `l` with `n < 2^l ≤ 2 n`. -/
theorem bitLength_unique (n l : Nat) (h1 : n < 2 ^ l) (h2 : 2 ^ l ≤ 2 * n) :
    bitLength n = l := by
  have hn : n ≠ 0 := by
    rintro rfl
    have := Nat.two_pow_pos l
    omega
  have a1 := lt_two_pow_bitLength n
  have a2 := two_pow_bitLength_le n hn
  have e1 : 2 ^ l < 2 ^ (bitLength n + 1) := by rw [pow_succ]; omega
  have e2 : 2 ^ bitLength n < 2 ^ (l + 1) := by rw [pow_succ]; omega
  have f1 := (Nat.pow_lt_pow_iff_right (show 1 < 2 by decide)).1 e1
  have f2 := (Nat.pow_lt_pow_iff_right (show 1 < 2 by decide)).1 e2
  omega

theorem bitLength_mul_two_pow (n s : Nat) (h : n ≠ 0) :
    bitLength (n * 2 ^ s) = bitLength n + s := by
  apply bitLength_unique
  · rw [pow_add]
    exact Nat.mul_lt_mul_of_pos_right (lt_two_pow_bitLength n) (Nat.two_pow_pos s)
  · rw [pow_add]
    have := two_pow_bitLength_le n h
    calc 2 ^ bitLength n * 2 ^ s ≤ (2 * n) * 2 ^ s := Nat.mul_le_mul_right _ this
      _ = 2 * (n * 2 ^ s) := by ring

theorem bitLength_le_of_lt (n l : Nat) (h : n < 2 ^ l) : bitLength n ≤ l := by
  by_cases hn : n = 0
  · subst hn
    simp [bitLength, bitLengthAux]
  · have a2 := two_pow_bitLength_le n hn
    have e : 2 ^ bitLength n < 2 ^ (l + 1) := by rw [pow_succ]; omega
    have := (Nat.pow_lt_pow_iff_right (show 1 < 2 by decide)).1 e
    omega

theorem bitLength_one : bitLength 1 = 1 := by decide

/-! ## Normal forms -/

theorem normalizeAux_fuel (f1 f2 : Nat) (neg : Bool) (m : Nat) (e : Int) (h1 : m < f1)
    (h2 : m < f2) : normalizeAux f1 neg m e = normalizeAux f2 neg m e := by
  induction f1 generalizing f2 m e with
  | zero => omega
  | succ n ih =>
    cases f2 with
    | zero => omega
    | succ n2 =>
      simp only [normalizeAux]
      by_cases hm : m = 0
      · rw [if_pos hm, if_pos hm]
      · rw [if_neg hm, if_neg hm]
        by_cases he : m % 2 = 0
        · rw [if_pos he, if_pos he]
          exact ih _ _ _ (by omega) (by omega)
        · rw [if_neg he, if_neg he]

theorem normalize_two_mul (neg : Bool) (m : Nat) (e : Int) (h : m ≠ 0) :
    normalize neg (2 * m) e = normalize neg m (e + 1) := by
  unfold normalize
  simp only [normalizeAux]
  rw [if_neg (by omega), if_pos (by omega)]
  have : 2 * m / 2 = m := by omega
  rw [this]
  exact normalizeAux_fuel (2 * m) (m + 1) neg m (e + 1) (by omega) (by omega)

theorem normalize_mul_two_pow (neg : Bool) (m j : Nat) (e : Int) (h : m ≠ 0) :
    normalize neg (m * 2 ^ j) e = normalize neg m (e + j) := by
  induction j generalizing e with
  | zero => simp
  | succ j ih =>
    have h2 : m * 2 ^ (j + 1) = 2 * (m * 2 ^ j) := by ring
    have hne : m * 2 ^ j ≠ 0 := Nat.mul_ne_zero h (Nat.two_pow_pos j).ne.symm
    rw [h2, normalize_two_mul _ _ _ hne, ih]
    congr 1
    push_cast
    ring

theorem normalizeAux_spec (f : Nat) (neg : Bool) (m : Nat) (e : Int) (hf : m < f) (h : m ≠ 0) :
    ∃ m2 e2, normalizeAux f neg m e = .fin neg m2 e2 ∧ e ≤ e2 ∧
      m2 * 2 ^ (e2 - e).toNat = m ∧ m2 % 2 = 1 := by
  induction f generalizing m e with
  | zero => omega
  | succ n ih =>
    simp only [normalizeAux]
    rw [if_neg h]
    by_cases he : m % 2 = 0
    · rw [if_pos he]
      obtain ⟨m2, e2, h1, h2, h3, h4⟩ := ih (m / 2) (e + 1) (by omega) (by omega)
      refine ⟨m2, e2, h1, by omega, ?_, h4⟩
      have ht : (e2 - e).toNat = (e2 - (e + 1)).toNat + 1 := by omega
      rw [ht, pow_succ, ← Nat.mul_assoc, h3]
      omega
    · rw [if_neg he]
      exact ⟨m, e, rfl, le_rfl, by simp, by omega⟩

theorem normalize_spec (neg : Bool) (m : Nat) (e : Int) (h : m ≠ 0) :
    ∃ m2 e2, normalize neg m e = .fin neg m2 e2 ∧ e ≤ e2 ∧
      m2 * 2 ^ (e2 - e).toNat = m ∧ m2 % 2 = 1 :=
  normalizeAux_spec (m + 1) neg m e (by omega) h

theorem neg_normalizeAux (f : Nat) (s : Bool) (m : Nat) (e : Int) :
    (normalizeAux f s m e).neg = normalizeAux f (!s) m e := by
  induction f generalizing m e with
  | zero => rfl
  | succ n ih =>
    simp only [normalizeAux]
    by_cases hm : m = 0
    · rw [if_pos hm, if_pos hm]; rfl
    · rw [if_neg hm, if_neg hm]
      by_cases he : m % 2 = 0
      · rw [if_pos he, if_pos he]; exact ih _ _
      · rw [if_neg he, if_neg he]; rfl

/-! ## Rounding a number that needs no rounding -/

theorem roundHalfEven_mul (c n : Nat) (hc : c ≠ 0) : roundHalfEven (c * n) c = n := by
  have hq : c * n / c = n := Nat.mul_div_cancel_left n (Nat.pos_of_ne_zero hc)
  have hr : c * n % c = 0 := Nat.mul_mod_right c n
  simp only [roundHalfEven, hq, hr]
  rw [if_pos (by omega)]

theorem floorLog2Ratio_mul (c n : Nat) (hc : c ≠ 0) (hn : n ≠ 0) :
    floorLog2Ratio (c * n) c = (bitLength n : Int) - 1 := by
  have c1 := lt_two_pow_bitLength c
  have c2 := two_pow_bitLength_le c hc
  have n1 := lt_two_pow_bitLength n
  have n2 := two_pow_bitLength_le n hn
  have hcn : c * n ≠ 0 := Nat.mul_ne_zero hc hn
  have p1 := lt_two_pow_bitLength (c * n)
  have p2 := two_pow_bitLength_le (c * n) hcn
  have hnpos := bitLength_pos n hn
  have hup : bitLength (c * n) ≤ bitLength c + bitLength n := by
    apply bitLength_le_of_lt
    rw [pow_add]
    exact Nat.mul_lt_mul_of_lt_of_lt c1 n1
  have hlo : bitLength c + bitLength n < bitLength (c * n) + 2 := by
    apply (Nat.pow_lt_pow_iff_right (show 1 < 2 by decide)).1
    have e1 : 2 ^ (bitLength c + bitLength n) ≤ (2 * c) * (2 * n) := by
      rw [pow_add]; exact Nat.mul_le_mul c2 n2
    have e2 : 2 ^ (bitLength (c * n) + 2) = 4 * 2 ^ bitLength (c * n) := by
      rw [pow_add]; ring
    have e3 : (2 * c) * (2 * n) = 4 * (c * n) := by ring
    omega
  unfold floorLog2Ratio
  simp only []
  have hd : (0 : Int) ≤ (bitLength (c * n) : Int) - (bitLength c : Int) := by omega
  rw [if_pos hd]
  by_cases hcase : bitLength (c * n) = bitLength c + bitLength n
  · have ht : ((bitLength (c * n) : Int) - (bitLength c : Int)).toNat = bitLength n := by omega
    rw [ht, if_neg]
    · omega
    · intro hle
      have := Nat.le_of_mul_le_mul_left hle (Nat.pos_of_ne_zero hc)
      omega
  · have ht : ((bitLength (c * n) : Int) - (bitLength c : Int)).toNat = bitLength n - 1 := by
      omega
    rw [ht, if_pos]
    · omega
    · apply Nat.mul_le_mul_left
      have : 2 ^ bitLength n = 2 * 2 ^ (bitLength n - 1) := by
        rw [← pow_succ']
        congr 1
        omega
      omega

/-- A quotient that is a `float64` number is not changed by the rounding:
`c n / c` with `n` of at most 53 binary digits, times `2^e`, in range. -/
theorem round_mul_exact (neg : Bool) (c n : Nat) (e : Int) (hc : c ≠ 0) (hn : n ≠ 0)
    (hb : bitLength n ≤ 53) (he : -1074 ≤ e) (hr : (bitLength n : Int) + e ≤ 1024) :
    Float64.round neg (c * n) c e = normalize neg n e := by
  have hnpos := bitLength_pos n hn
  unfold Float64.round
  simp only []
  rw [floorLog2Ratio_mul c n hc hn]
  obtain ⟨k, hk⟩ : ∃ k, k = max ((bitLength n : Int) - 1 + e) (-1022) - 52 := ⟨_, rfl⟩
  rw [← hk]
  have hs : 0 ≤ e - k := by omega
  rw [if_pos hs]
  obtain ⟨t, ht⟩ : ∃ t : Nat, (t : Int) = e - k := ⟨(e - k).toNat, by omega⟩
  have htn : (e - k).toNat = t := by omega
  rw [htn, Nat.mul_assoc, roundHalfEven_mul _ _ hc, bitLength_mul_two_pow _ _ hn]
  rw [if_neg (by push_cast; omega), normalize_mul_two_pow _ _ _ _ hn]
  congr 1
  omega

theorem round_exact (neg : Bool) (n : Nat) (e : Int) (hn : n ≠ 0)
    (hb : bitLength n ≤ 53) (he : -1074 ≤ e) (hr : (bitLength n : Int) + e ≤ 1024) :
    Float64.round neg n 1 e = normalize neg n e := by
  have := round_mul_exact neg 1 n e (by decide) hn hb he hr
  rwa [Nat.one_mul] at this

/-! ## Whole numbers below `2^53` as `float64` values, and the operations on them -/

theorem neg_inf_or_normalize (c : Prop) [Decidable c] (s : Bool) (m : Nat) (k : Int) :
    (if c then Float64.inf s else normalize s m k).neg =
      if c then Float64.inf (!s) else normalize (!s) m k := by
  by_cases h : c
  · rw [if_pos h, if_pos h]
    rfl
  · rw [if_neg h, if_neg h]
    exact neg_normalizeAux _ _ _ _

theorem neg_round (s : Bool) (n d : Nat) (e : Int) :
    (Float64.round s n d e).neg = Float64.round (!s) n d e := by
  unfold Float64.round
  exact neg_inf_or_normalize _ _ _ _

theorem ofInt_eq_normalize (n : Int) (hn : n ≠ 0) (hb : n.natAbs < 2 ^ 53) :
    Float64.ofInt n = normalize (decide (n < 0)) n.natAbs 0 := by
  unfold Float64.ofInt
  rw [if_neg hn]
  have h53 := bitLength_le_of_lt _ _ hb
  exact round_exact _ _ _ (by omega) h53 (by omega) (by omega)

theorem ofInt_spec (n : Int) (hb : n.natAbs < 2 ^ 53) :
    ∃ m e, Float64.ofInt n = .fin (decide (n < 0)) m e ∧ 0 ≤ e ∧
      m * 2 ^ e.toNat = n.natAbs ∧ (n ≠ 0 → m % 2 = 1) := by
  by_cases hn : n = 0
  · subst hn
    exact ⟨0, 0, rfl, le_rfl, rfl, fun h => absurd rfl h⟩
  · rw [ofInt_eq_normalize n hn hb]
    obtain ⟨m, e, h1, h2, h3, h4⟩ := normalize_spec (decide (n < 0)) n.natAbs 0 (by omega)
    refine ⟨m, e, h1, h2, ?_, fun _ => h4⟩
    simpa using h3

theorem neg_ofInt (n : Int) (hn : n ≠ 0) : (Float64.ofInt n).neg = Float64.ofInt (-n) := by
  unfold Float64.ofInt
  rw [if_neg hn, if_neg (by omega), neg_round, Int.natAbs_neg]
  congr 1
  by_cases h : n < 0
  · simp [h]; omega
  · simp [h]; omega

theorem signedInt_scale (s : Bool) (m : Nat) (e emin n : Int) (hs : s = decide (n < 0))
    (hm : m * 2 ^ e.toNat = n.natAbs) (h0 : 0 ≤ emin) (h1 : emin ≤ e) :
    signedInt s (m * 2 ^ (e - emin).toNat) * 2 ^ emin.toNat = n := by
  have ht : e.toNat = (e - emin).toNat + emin.toNat := by omega
  have hN : ((m * 2 ^ (e - emin).toNat : Nat) : Int) * 2 ^ emin.toNat = (n.natAbs : Int) := by
    rw [← hm, ht, pow_add]
    push_cast
    ring
  unfold signedInt
  by_cases hneg : n < 0
  · rw [hs, decide_eq_true hneg, if_pos rfl, neg_mul, hN]
    omega
  · rw [hs, decide_eq_false hneg]
    simp only [Bool.false_eq_true, if_false]
    rw [hN]
    omega

theorem add_ofInt (a b : Int) (ha : a.natAbs < 2 ^ 53) (hb : b.natAbs < 2 ^ 53)
    (hab : (a + b).natAbs < 2 ^ 53) :
    (Float64.ofInt a).add (Float64.ofInt b) = Float64.ofInt (a + b) := by
  obtain ⟨ma, ea, ra, ea0, hma, -⟩ := ofInt_spec a ha
  obtain ⟨mb, eb, rb, eb0, hmb, -⟩ := ofInt_spec b hb
  rw [ra, rb]
  simp only [Float64.add]
  have hmin0 : 0 ≤ min ea eb := le_min ea0 eb0
  have hX := signedInt_scale _ ma ea (min ea eb) a rfl hma hmin0 (min_le_left _ _)
  have hY := signedInt_scale _ mb eb (min ea eb) b rfl hmb hmin0 (min_le_right _ _)
  generalize signedInt (decide (a < 0)) (ma * 2 ^ (ea - min ea eb).toNat) = x at hX ⊢
  generalize signedInt (decide (b < 0)) (mb * 2 ^ (eb - min ea eb).toNat) = y at hY ⊢
  generalize min ea eb = emin at hmin0 hX hY ⊢
  obtain ⟨t, rfl⟩ : ∃ t : Nat, emin = t := ⟨emin.toNat, by omega⟩
  simp only [Int.toNat_ofNat] at hX hY
  have hS : (x + y) * 2 ^ t = a + b := by rw [add_mul, hX, hY]
  have hpos : (0 : Int) < 2 ^ t := by positivity
  by_cases h0 : x + y = 0
  · rw [if_pos h0]
    have hab0 : a + b = 0 := by rw [← hS, h0, zero_mul]
    rw [hab0]
    by_cases hsgn : decide (a < 0) = decide (b < 0)
    · rw [if_pos hsgn]
      have : ¬ a < 0 := by
        intro h
        have : b < 0 := by simpa [h] using hsgn.symm
        omega
      simp [this, Float64.ofInt]
    · rw [if_neg hsgn]
      rfl
  · rw [if_neg h0]
    have hab0 : a + b ≠ 0 := by
      intro h
      rw [h] at hS
      rcases mul_eq_zero.1 hS with h | h
      · exact h0 h
      · omega
    have hnat : (x + y).natAbs * 2 ^ t = (a + b).natAbs := by
      rw [← hS, Int.natAbs_mul, Int.natAbs_pow]
      rfl
    have hsign : decide (x + y < 0) = decide (a + b < 0) := by
      congr 1
      rw [← hS]
      apply propext
      constructor
      · intro h
        exact mul_neg_of_neg_of_pos h hpos
      · intro h
        by_contra hc
        have : 0 ≤ (x + y) * 2 ^ t := mul_nonneg (by omega) hpos.le
        omega
    have hne : (x + y).natAbs ≠ 0 := by omega
    have hbl : bitLength ((x + y).natAbs) + t ≤ 53 := by
      rw [← bitLength_mul_two_pow _ _ hne, hnat]
      exact bitLength_le_of_lt _ _ hab
    rw [round_exact _ _ _ hne (by omega) (by omega) (by omega)]
    rw [ofInt_eq_normalize _ hab0 hab, ← hnat, normalize_mul_two_pow _ _ _ _ hne, hsign]
    congr 1
    omega

theorem sub_ofInt (a b : Int) (ha : a.natAbs < 2 ^ 53) (hb : b.natAbs < 2 ^ 53)
    (hab : (a - b).natAbs < 2 ^ 53) (hb0 : b ≠ 0) :
    (Float64.ofInt a).sub (Float64.ofInt b) = Float64.ofInt (a - b) := by
  unfold Float64.sub
  rw [neg_ofInt b hb0, add_ofInt a (-b) ha (by rwa [Int.natAbs_neg]) (by rwa [← sub_eq_add_neg]),
    ← sub_eq_add_neg]

theorem lt_ofInt (a b : Int) (ha : a.natAbs < 2 ^ 53) (hb : b.natAbs < 2 ^ 53) :
    (Float64.ofInt a).lt (Float64.ofInt b) = decide (a < b) := by
  obtain ⟨ma, ea, ra, ea0, hma, -⟩ := ofInt_spec a ha
  obtain ⟨mb, eb, rb, eb0, hmb, -⟩ := ofInt_spec b hb
  rw [ra, rb]
  simp only [Float64.lt]
  have hmin0 : 0 ≤ min ea eb := le_min ea0 eb0
  have hX := signedInt_scale _ ma ea (min ea eb) a rfl hma hmin0 (min_le_left _ _)
  have hY := signedInt_scale _ mb eb (min ea eb) b rfl hmb hmin0 (min_le_right _ _)
  generalize signedInt (decide (a < 0)) (ma * 2 ^ (ea - min ea eb).toNat) = x at hX ⊢
  generalize signedInt (decide (b < 0)) (mb * 2 ^ (eb - min ea eb).toNat) = y at hY ⊢
  have hpos : (0 : Int) < 2 ^ (min ea eb).toNat := by positivity
  congr 1
  rw [← hX, ← hY]
  exact propext (mul_lt_mul_right hpos).symm

theorem add_ofInt_negZero (a : Int) (ha : a.natAbs < 2 ^ 53) (h0 : a ≠ 0) :
    (Float64.ofInt a).add (.fin true 0 0) = Float64.ofInt a := by
  obtain ⟨ma, ea, ra, ea0, hma, -⟩ := ofInt_spec a ha
  have hdef : Float64.ofInt a = Float64.round (decide (a < 0)) a.natAbs 1 0 := by
    unfold Float64.ofInt
    rw [if_neg h0]
  rw [ra] at hdef ⊢
  simp only [Float64.add]
  have hmin : min ea 0 = 0 := min_eq_right ea0
  have hX := signedInt_scale _ ma ea 0 a rfl hma le_rfl ea0
  rw [hmin]
  simp only [Int.toNat_zero, pow_zero, mul_one, sub_zero, Nat.zero_mul] at hX ⊢
  have hz : signedInt true 0 = 0 := rfl
  rw [hz, add_zero, hX, if_neg h0, hdef]

theorem sub_ofInt_zero (a : Int) (ha : a.natAbs < 2 ^ 53) (h0 : a ≠ 0) :
    (Float64.ofInt a).sub (Float64.ofInt 0) = Float64.ofInt a :=
  add_ofInt_negZero a ha h0

theorem div_ofInt (w q : Nat) (hw : w ≠ 0) (hq : q ≠ 0) (h : w * q < 2 ^ 53) :
    (Float64.ofInt ((w * q : Nat) : Int)).div (Float64.ofInt (w : Int)) =
      Float64.ofInt (q : Int) := by
  have hwq0 : w * q ≠ 0 := Nat.mul_ne_zero hw hq
  have hwb : w < 2 ^ 53 := lt_of_le_of_lt (Nat.le_mul_of_pos_right w (Nat.pos_of_ne_zero hq)) h
  have hqb : q < 2 ^ 53 := lt_of_le_of_lt (Nat.le_mul_of_pos_left q (Nat.pos_of_ne_zero hw)) h
  obtain ⟨M, E, rM, E0, hM, oM⟩ := ofInt_spec ((w * q : Nat) : Int) (by simpa using h)
  obtain ⟨mw, ew, rW, ew0, hmw, omw⟩ := ofInt_spec (w : Int) (by simpa using hwb)
  have oM1 : M % 2 = 1 := oM (by exact_mod_cast hwq0)
  have omw1 : mw % 2 = 1 := omw (by exact_mod_cast hw)
  have sM : decide (((w * q : Nat) : Int) < 0) = false :=
    decide_eq_false (not_lt.2 (Int.ofNat_nonneg _))
  have sW : decide ((w : Int) < 0) = false := decide_eq_false (not_lt.2 (Int.ofNat_nonneg _))
  rw [sM] at rM
  rw [sW] at rW
  rw [rM, rW]
  simp only [Float64.div]
  rw [if_neg (by omega), if_neg (by omega)]
  obtain ⟨tE, rfl⟩ : ∃ t : Nat, E = t := ⟨E.toNat, by omega⟩
  obtain ⟨tw, rfl⟩ : ∃ t : Nat, ew = t := ⟨ew.toNat, by omega⟩
  simp only [Int.toNat_ofNat, Int.natAbs_ofNat] at hM hmw
  have hcop : Nat.Coprime mw (2 ^ tE) := by
    apply Nat.Coprime.pow_right
    exact Nat.coprime_comm.1 ((Nat.Prime.coprime_iff_not_dvd Nat.prime_two).2 (by omega))
  have hdvd : mw ∣ M := by
    apply hcop.dvd_of_dvd_mul_right
    rw [hM, ← hmw]
    exact ⟨2 ^ tw * q, by ring⟩
  obtain ⟨q2, rfl⟩ := hdvd
  have hmw0 : mw ≠ 0 := by omega
  have hq2odd : q2 % 2 = 1 := by
    rcases Nat.mod_two_eq_zero_or_one q2 with h2 | h2
    · have : mw * q2 % 2 = 0 := by
        rw [Nat.mul_mod, h2, Nat.mul_zero]
      omega
    · exact h2
  have hq20 : q2 ≠ 0 := by omega
  have heq : q2 * 2 ^ tE = 2 ^ tw * q := by
    have : mw * (q2 * 2 ^ tE) = mw * (2 ^ tw * q) := by
      rw [← Nat.mul_assoc, hM, ← hmw]
      ring
    exact Nat.eq_of_mul_eq_mul_left (Nat.pos_of_ne_zero hmw0) this
  have hle : tw ≤ tE := by
    by_contra hc
    obtain ⟨j, rfl⟩ : ∃ j, tw = tE + (j + 1) := ⟨tw - tE - 1, by omega⟩
    have : 2 ^ tE * q2 = 2 ^ tE * (2 * (2 ^ j * q)) := by
      rw [Nat.mul_comm, heq]
      ring
    have := Nat.eq_of_mul_eq_mul_left (Nat.two_pow_pos tE) this
    omega
  obtain ⟨j, rfl⟩ : ∃ j, tE = tw + j := ⟨tE - tw, by omega⟩
  have hq : q = q2 * 2 ^ j := by
    have : 2 ^ tw * q = 2 ^ tw * (q2 * 2 ^ j) := by
      rw [← heq]
      ring
    exact Nat.eq_of_mul_eq_mul_left (Nat.two_pow_pos tw) this
  have hbl : bitLength q2 + j ≤ 53 := by
    rw [← bitLength_mul_two_pow _ _ hq20, ← hq]
    exact bitLength_le_of_lt _ _ hqb
  have hsub : ((tw + j : Nat) : Int) - (tw : Int) = (j : Int) := by omega
  rw [hsub]
  simp only [Bool.xor_false]
  rw [round_mul_exact _ _ _ _ hmw0 hq20 (by omega) (by omega) (by omega)]
  rw [ofInt_eq_normalize _ (by exact_mod_cast (show q ≠ 0 by omega)) (by simpa using hqb)]
  simp only [Int.natAbs_ofNat]
  have sq : decide ((q : Int) < 0) = false := decide_eq_false (not_lt.2 (Int.ofNat_nonneg _))
  rw [sq]
  conv_rhs => rw [hq]
  rw [normalize_mul_two_pow _ _ _ _ hq20, zero_add]

/-! ## The loops of GetSpritesheetFrames on whole pixels -/

theorem natAbs_lt_of_nonneg (x : Int) (h0 : 0 ≤ x) (h1 : x < 2 ^ 53) : x.natAbs < 2 ^ 53 := by
  omega

theorem div_ofInt_int (w a : Int) (hw : 0 < w) (ha : 0 < a) (h : w * a < 2 ^ 53) :
    (Float64.ofInt (w * a)).div (Float64.ofInt w) = Float64.ofInt a := by
  obtain ⟨wn, rfl⟩ : ∃ n : Nat, w = n := ⟨w.toNat, by omega⟩
  obtain ⟨an, rfl⟩ : ∃ n : Nat, a = n := ⟨a.toNat, by omega⟩
  have := div_ofInt wn an (by omega) (by omega) (by exact_mod_cast h)
  rwa [Nat.cast_mul] at this

theorem framesOfRow_eq (n : Nat) (a : Int) (y dh : Float64) (hn : 0 < n) (ha : 0 < a)
    (hb : (n : Int) * a < 2 ^ 53) :
    ∀ (j k fuel : Nat) (acc : List FloatRect), k + j = n → j < fuel →
      framesOfRow fuel (Float64.ofInt (k * a)) (Float64.ofInt (n * a)) (Float64.ofInt a)
          y dh acc =
        some (acc ++ (List.range' k j).map fun c : Nat =>
          floatR (Float64.ofInt (c * a)) (y.sub dh) (Float64.ofInt ((c + 1) * a)) y) := by
  have hbound : ∀ k : Nat, k ≤ n → 0 ≤ (k : Int) * a ∧ (k : Int) * a < 2 ^ 53 := by
    intro k hk
    have h1 : (k : Int) * a ≤ (n : Int) * a :=
      mul_le_mul_of_nonneg_right (by exact_mod_cast hk) ha.le
    exact ⟨mul_nonneg (Int.ofNat_nonneg k) ha.le, lt_of_le_of_lt h1 hb⟩
  have hab : a.natAbs < 2 ^ 53 := by
    have h1 : (1 : Int) * a ≤ (n : Int) * a :=
      mul_le_mul_of_nonneg_right (by exact_mod_cast hn) ha.le
    omega
  intro j
  induction j with
  | zero =>
    intro k fuel acc hk hf
    obtain ⟨f, rfl⟩ : ∃ f, fuel = f + 1 := ⟨fuel - 1, by omega⟩
    have hkn : k = n := by omega
    subst hkn
    obtain ⟨b0, b1⟩ := hbound k le_rfl
    have hlt : (Float64.ofInt (k * a)).lt (Float64.ofInt (k * a)) = false := by
      rw [lt_ofInt _ _ (natAbs_lt_of_nonneg _ b0 b1) (natAbs_lt_of_nonneg _ b0 b1)]
      simp
    simp [framesOfRow, hlt]
  | succ j ih =>
    intro k fuel acc hk hf
    obtain ⟨f, rfl⟩ : ∃ f, fuel = f + 1 := ⟨fuel - 1, by omega⟩
    obtain ⟨b0, b1⟩ := hbound k (by omega)
    obtain ⟨c0, c1⟩ := hbound (k + 1) (by omega)
    obtain ⟨n0, n1⟩ := hbound n le_rfl
    have hkn : (k : Int) * a < (n : Int) * a :=
      mul_lt_mul_of_pos_right (by exact_mod_cast (show k < n by omega)) ha
    have hlt : (Float64.ofInt (k * a)).lt (Float64.ofInt (n * a)) = true := by
      rw [lt_ofInt _ _ (natAbs_lt_of_nonneg _ b0 b1) (natAbs_lt_of_nonneg _ n0 n1)]
      exact decide_eq_true hkn
    have hk1 : (k : Int) * a + a = ((k + 1 : Nat) : Int) * a := by push_cast; ring
    have hadd : (Float64.ofInt (k * a)).add (Float64.ofInt a) =
        Float64.ofInt (((k + 1 : Nat) : Int) * a) := by
      rw [add_ofInt _ _ (natAbs_lt_of_nonneg _ b0 b1) hab
        (by rw [hk1]; exact natAbs_lt_of_nonneg _ c0 c1), hk1]
    rw [framesOfRow, if_pos hlt, hadd, ih (k + 1) f _ (by omega) (by omega),
      List.range'_succ, List.map_cons]
    simp

theorem framesOfRows_eq (n m rowFuel : Nat) (a b : Int) (hn : 0 < n) (ha : 0 < a) (hb : 0 < b)
    (hna : (n : Int) * a < 2 ^ 53) (hmb : (m : Int) * b < 2 ^ 53) (hrf : n < rowFuel) :
    ∀ (i r fuel : Nat) (acc : List FloatRect), r + i = m → i < fuel →
      framesOfRows fuel rowFuel (Float64.ofInt (m * b - r * b)) (Float64.ofInt (n * a))
          (Float64.ofInt a) (Float64.ofInt b) acc =
        some (acc ++ ((List.range' r i).map fun r : Nat => (List.range' 0 n).map fun c : Nat =>
          floatR (Float64.ofInt (c * a)) (Float64.ofInt (m * b - (r + 1) * b))
            (Float64.ofInt ((c + 1) * a)) (Float64.ofInt (m * b - r * b))).flatten) := by
  have hbound : ∀ r : Nat, r ≤ m →
      0 ≤ (m : Int) * b - r * b ∧ (m : Int) * b - r * b < 2 ^ 53 := by
    intro r hr
    have h1 : (r : Int) * b ≤ (m : Int) * b :=
      mul_le_mul_of_nonneg_right (by exact_mod_cast hr) hb.le
    have h2 : 0 ≤ (r : Int) * b := mul_nonneg (Int.ofNat_nonneg r) hb.le
    omega
  intro i
  induction i with
  | zero =>
    intro r fuel acc hr hf
    obtain ⟨f, rfl⟩ : ∃ f, fuel = f + 1 := ⟨fuel - 1, by omega⟩
    have hrm : r = m := by omega
    subst hrm
    have hy0 : Float64.lt (.fin false 0 0) (Float64.ofInt 0) = false := by decide
    rw [sub_self]
    simp [framesOfRows, hy0]
  | succ i ih =>
    intro r fuel acc hr hf
    obtain ⟨f, rfl⟩ : ∃ f, fuel = f + 1 := ⟨fuel - 1, by omega⟩
    obtain ⟨y0, y1⟩ := hbound r (by omega)
    obtain ⟨z0, z1⟩ := hbound (r + 1) (by omega)
    have hrb : (r : Int) * b < (m : Int) * b :=
      mul_lt_mul_of_pos_right (by exact_mod_cast (show r < m by omega)) hb
    have hbm : b ≤ (m : Int) * b - r * b := by
      have : ((r + 1 : Nat) : Int) * b ≤ (m : Int) * b :=
        mul_le_mul_of_nonneg_right (by exact_mod_cast (show r + 1 ≤ m by omega)) hb.le
      push_cast at this
      linarith
    have hzero : Float64.fin false 0 0 = Float64.ofInt 0 := rfl
    have hy0 : Float64.lt (.fin false 0 0) (Float64.ofInt ((m : Int) * b - r * b)) = true := by
      rw [hzero, lt_ofInt _ _ (by decide) (natAbs_lt_of_nonneg _ y0 y1)]
      exact decide_eq_true (by omega)
    have hr1 : (m : Int) * b - r * b - b = (m : Int) * b - ((r + 1 : Nat) : Int) * b := by
      push_cast; ring
    have hsub : (Float64.ofInt ((m : Int) * b - r * b)).sub (Float64.ofInt b) =
        Float64.ofInt ((m : Int) * b - ((r + 1 : Nat) : Int) * b) := by
      rw [sub_ofInt _ _ (natAbs_lt_of_nonneg _ y0 y1) (by omega)
        (by rw [hr1]; exact natAbs_lt_of_nonneg _ z0 z1) (by omega), hr1]
    have hrow := framesOfRow_eq n a (Float64.ofInt ((m : Int) * b - r * b)) (Float64.ofInt b)
      hn ha hna n 0 rowFuel acc (by omega) hrf
    simp only [Nat.cast_zero, zero_mul] at hrow
    rw [framesOfRows, if_pos hy0, hzero, hrow]
    simp only []
    rw [hsub, ih (r + 1) f _ (by omega) (by omega), List.range'_succ, List.map_cons,
      List.flatten_cons]
    simp

/-- For a rectangle of whole pixels from the origin whose width and height are
below `2^53` and are multiples of the grid's width and height,
`GetSpritesheetFrames` returns, with enough fuel, the tiling of the rectangle:
no operation of the run rounds. -/
theorem GetSpritesheetFrames_eq (pixelWidth pixelHeight w h : Int) (fuel : Nat)
    (hW : 0 < pixelWidth) (hH : 0 < pixelHeight) (hw : 0 < w) (hh : 0 < h)
    (hdw : w ∣ pixelWidth) (hdh : h ∣ pixelHeight)
    (hWb : pixelWidth < 2 ^ 53) (hHb : pixelHeight < 2 ^ 53)
    (hfw : w < fuel) (hfh : h < fuel) :
    GetSpritesheetFrames fuel
        (floatR 0 0 (Float64.ofInt pixelWidth) (Float64.ofInt pixelHeight)) w h =
      some (tiling 0 0 pixelWidth pixelHeight w h) := by
  obtain ⟨a, rfl⟩ := hdw
  obtain ⟨b, rfl⟩ := hdh
  have ha : 0 < a := (mul_pos_iff_of_pos_left hw).1 hW
  have hb : 0 < b := (mul_pos_iff_of_pos_left hh).1 hH
  obtain ⟨n, rfl⟩ : ∃ n : Nat, w = n := ⟨w.toNat, by omega⟩
  obtain ⟨m, rfl⟩ : ∃ m : Nat, h = m := ⟨h.toNat, by omega⟩
  have hzero : (0 : Float64) = Float64.ofInt 0 := rfl
  have hpw : (floatR 0 0 (Float64.ofInt (n * a)) (Float64.ofInt (m * b))).W =
      Float64.ofInt (n * a) := by
    show (Float64.ofInt (n * a)).sub 0 = _
    rw [hzero, sub_ofInt_zero _ (natAbs_lt_of_nonneg _ hW.le hWb) hW.ne.symm]
  have hph : (floatR 0 0 (Float64.ofInt (n * a)) (Float64.ofInt (m * b))).H =
      Float64.ofInt (m * b) := by
    show (Float64.ofInt (m * b)).sub 0 = _
    rw [hzero, sub_ofInt_zero _ (natAbs_lt_of_nonneg _ hH.le hHb) hH.ne.symm]
  have h1 := framesOfRows_eq n m fuel a b (by omega) ha hb hWb hHb (by omega)
    m 0 fuel [] (by omega) (by omega)
  simp only [Nat.cast_zero, zero_mul, sub_zero, List.nil_append] at h1
  rw [GetSpritesheetFrames, hpw, hph, div_ofInt_int _ _ hw ha hWb, div_ofInt_int _ _ hh hb hHb,
    h1, tiling, List.range_eq_range', List.range_eq_range']
  simp only [tileCell, sub_zero, zero_add, Int.toNat_ofNat,
    Int.mul_ediv_cancel_left _ hw.ne.symm, Int.mul_ediv_cancel_left _ hh.ne.symm]

/-! ## The tiling of a rectangle -/

theorem length_flatten_map_of_length {α β : Type} (f : α → List β) (n : Nat)
    (hf : ∀ a, (f a).length = n) (l : List α) : ((l.map f).flatten).length = l.length * n := by
  induction l with
  | nil => simp
  | cons a l ih =>
    simp only [List.map_cons, List.flatten_cons, List.length_append, ih, hf, List.length_cons]
    ring

theorem length_tiling (x0 y0 x1 y1 w h : Int) :
    (tiling x0 y0 x1 y1 w h).length = h.toNat * w.toNat := by
  rw [tiling, length_flatten_map_of_length _ w.toNat (by intro r; simp), List.length_range]

theorem getElem?_flatten_map_range {β : Type} (g : Nat → Nat → β) (n : Nat) :
    ∀ (m r c : Nat), r < m → c < n →
      (((List.range m).map fun r => (List.range n).map fun c => g r c).flatten)[r * n + c]? =
        some (g r c) := by
  intro m
  induction m with
  | zero => intro r c hr; omega
  | succ m ih =>
    intro r c hr hc
    rw [List.range_succ, List.map_append, List.flatten_append]
    have hlen : (((List.range m).map fun r => (List.range n).map fun c => g r c).flatten).length =
        m * n := by
      rw [length_flatten_map_of_length _ n (by intro r; simp), List.length_range]
    rcases Nat.lt_or_ge r m with hlt | hge
    · have hidx : r * n + c < m * n := by
        calc r * n + c < r * n + n := by omega
          _ = (r + 1) * n := by ring
          _ ≤ m * n := Nat.mul_le_mul_right n hlt
      rw [List.getElem?_append_left (by rw [hlen]; exact hidx)]
      exact ih r c hlt hc
    · have hrm : r = m := by omega
      subst hrm
      rw [List.getElem?_append_right (by rw [hlen]; omega), hlen]
      simp [hc]

theorem mem_tiling {x0 y0 x1 y1 w h : Int} {f : FloatRect}
    (hf : f ∈ tiling x0 y0 x1 y1 w h) :
    ∃ r c, r < h.toNat ∧ c < w.toNat ∧ f = tileCell x0 y0 x1 y1 w h r c := by
  simp only [tiling, List.mem_flatten, List.mem_map, List.mem_range] at hf
  obtain ⟨row, ⟨r, hr, rfl⟩, hfr⟩ := hf
  simp only [List.mem_map, List.mem_range] at hfr
  obtain ⟨c, hc, rfl⟩ := hfr
  exact ⟨r, c, hr, hc, rfl⟩

theorem le_ofInt (a b : Int) (ha : a.natAbs < 2 ^ 53) (hb : b.natAbs < 2 ^ 53) :
    (Float64.ofInt a).le (Float64.ofInt b) = decide (a ≤ b) := by
  obtain ⟨ma, ea, ra, ea0, hma, -⟩ := ofInt_spec a ha
  obtain ⟨mb, eb, rb, eb0, hmb, -⟩ := ofInt_spec b hb
  rw [ra, rb]
  simp only [Float64.le]
  have hmin0 : 0 ≤ min ea eb := le_min ea0 eb0
  have hX := signedInt_scale _ ma ea (min ea eb) a rfl hma hmin0 (min_le_left _ _)
  have hY := signedInt_scale _ mb eb (min ea eb) b rfl hmb hmin0 (min_le_right _ _)
  generalize signedInt (decide (a < 0)) (ma * 2 ^ (ea - min ea eb).toNat) = x at hX ⊢
  generalize signedInt (decide (b < 0)) (mb * 2 ^ (eb - min ea eb).toNat) = y at hY ⊢
  have hpos : (0 : Int) < 2 ^ (min ea eb).toNat := by positivity
  congr 1
  rw [← hX, ← hY]
  exact propext (mul_le_mul_right hpos).symm

theorem tileCell_inside (pixelWidth pixelHeight w h : Int) (r c : Nat)
    (hW : 0 < pixelWidth) (hH : 0 < pixelHeight) (hw : 0 < w) (hh : 0 < h)
    (hdw : w ∣ pixelWidth) (hdh : h ∣ pixelHeight)
    (hWb : pixelWidth < 2 ^ 53) (hHb : pixelHeight < 2 ^ 53)
    (hr : r < h.toNat) (hc : c < w.toNat) :
    (tileCell 0 0 pixelWidth pixelHeight w h r c).Inside
      (floatR 0 0 (Float64.ofInt pixelWidth) (Float64.ofInt pixelHeight)) := by
  obtain ⟨a, rfl⟩ := hdw
  obtain ⟨b, rfl⟩ := hdh
  have ha : 0 < a := (mul_pos_iff_of_pos_left hw).1 hW
  have hb : 0 < b := (mul_pos_iff_of_pos_left hh).1 hH
  have hc0 : 0 ≤ (c : Int) * a := mul_nonneg (Int.ofNat_nonneg c) ha.le
  have hr0 : 0 ≤ (r : Int) * b := mul_nonneg (Int.ofNat_nonneg r) hb.le
  have hc1 : ((c : Int) + 1) * a ≤ w * a :=
    mul_le_mul_of_nonneg_right (by omega) ha.le
  have hr1 : ((r : Int) + 1) * b ≤ h * b :=
    mul_le_mul_of_nonneg_right (by omega) hb.le
  have hc2 : 0 ≤ ((c : Int) + 1) * a := mul_nonneg (by omega) ha.le
  have e1 : ((c : Int) + 1) * a = c * a + a := by ring
  have e2 : ((r : Int) + 1) * b = r * b + b := by ring
  have hzero : (0 : Float64) = Float64.ofInt 0 := rfl
  simp only [tileCell, sub_zero, zero_add, Int.mul_ediv_cancel_left _ hw.ne.symm,
    Int.mul_ediv_cancel_left _ hh.ne.symm, FloatRect.Inside, floatR, hzero]
  refine ⟨?_, ?_, ?_, ?_⟩
  · rw [le_ofInt _ _ (by decide) (natAbs_lt_of_nonneg _ hc0 (by omega))]
    exact decide_eq_true hc0
  · rw [le_ofInt _ _ (natAbs_lt_of_nonneg _ hc2 (by omega)) (natAbs_lt_of_nonneg _ hW.le hWb)]
    exact decide_eq_true hc1
  · rw [le_ofInt _ _ (by decide) (natAbs_lt_of_nonneg _ (by omega) (by omega))]
    exact decide_eq_true (by omega)
  · rw [le_ofInt _ _ (natAbs_lt_of_nonneg _ (by omega) (by omega))
      (natAbs_lt_of_nonneg _ hH.le hHb)]
    exact decide_eq_true (by omega)

/-! ## The codec on concrete values -/

theorem PictureDataToBytes_scenarioA :
    PictureDataToBytes scenarioA =
      .ok [0, 0, 0, 2, 255, 0, 0, 255, 0, 255, 0, 128, 0, 0, 0, 2,
        0, 0, 0, 0, 0, 0, 0, 0, 0, 0, 0, 0, 0, 0, 0, 0,
        64, 0, 0, 0, 0, 0, 0, 0, 63, 240, 0, 0, 0, 0, 0, 0] := rfl

theorem AnimationDataToBytes_scenarioB :
    AnimationDataToBytes scenarioB =
      .ok [0, 0, 0, 4, 104, 101, 114, 111, 0, 0, 0, 2,
        0, 0, 0, 0, 0, 0, 0, 0, 0, 0, 0, 0, 0, 0, 0, 0,
        64, 64, 0, 0, 0, 0, 0, 0, 64, 64, 0, 0, 0, 0, 0, 0,
        64, 64, 0, 0, 0, 0, 0, 0, 0, 0, 0, 0, 0, 0, 0, 0,
        64, 80, 0, 0, 0, 0, 0, 0, 64, 64, 0, 0, 0, 0, 0, 0,
        0, 0, 0, 100, 0, 0, 0, 150] := rfl

theorem PictureDataFromBytes_degenerate :
    (PictureDataToBytes degeneratePicture >>= PictureDataFromBytes) = .ok degeneratePicture :=
  rfl

theorem AnimationDataFromBytes_empty_animation :
    (AnimationDataToBytes ⟨[], [], []⟩ >>= AnimationDataFromBytes) = .ok ⟨[], [], []⟩ := rfl

/-- Cut inside the name `"hero"`: `buffer.Read` copies the two bytes left and
reports no error, and the read of the frame count then meets the end. -/
theorem AnimationDataFromBytes_cut_in_name :
    AnimationDataFromBytes [0, 0, 0, 4, 104, 101] = .error (.err .EOF) := rfl

/-- A negative declared pixel count is read as no pixel. -/
theorem PictureDataFromBytes_negative_count :
    PictureDataFromBytes ([255, 255, 255, 255] ++ List.replicate 36 0) = .ok emptyPicture := rfl

/-- A negative declared frame count is read as no frame and no duration. -/
theorem AnimationDataFromBytes_negative_frame_count :
    AnimationDataFromBytes [0, 0, 0, 0, 255, 255, 255, 255] = .ok emptyAnimation := rfl

theorem AnimationDataFromBytes_scenarioBBytes :
    AnimationDataFromBytes scenarioBBytes = .ok scenarioB := rfl

set_option maxRecDepth 100000 in
/-- The 64 by 32 spritesheet cut into 2 by 1 tiles gives the two frames of
scenario B, `(0,0,32,32)` and `(32,0,64,32)`. -/
theorem GetSpritesheetFrames_two_by_one :
    GetSpritesheetFrames 3 (floatR 0 0 64 32) 2 1 =
      some [floatR 0 0 32 32, floatR 32 0 64 32] := by
  decide

set_option maxRecDepth 100000 in
/-- The tiling of the 64 by 32 rectangle into 2 by 2 cells, top row first. -/
theorem tiling_two_by_two :
    tiling 0 0 64 32 2 2 =
      [floatR 0 16 32 32, floatR 32 16 64 32, floatR 0 0 32 16, floatR 32 0 64 16] := by
  decide

/-- The quotient `1 / 10` is the `float64` nearest to one tenth,
`3602879701896397 / 2^55`, and `0.1 + 0.2` is `0.30000000000000004`, the
`float64` above `0.3`. -/
theorem Float64_add_tenths :
    Float64.div 1 10 = .fin false 3602879701896397 (-55) ∧
      (Float64.div 1 10).add (Float64.div 2 10) = .fin false 1351079888211149 (-52) ∧
      Float64.div 3 10 = .fin false 5404319552844595 (-54) ∧
      (Float64.div 3 10).lt ((Float64.div 1 10).add (Float64.div 2 10)) = true := by
  decide

set_option maxRecDepth 100000 in
/-- The unit square cut into 10 columns: `1 / 10` rounds up, ten additions of it
give `0.9999999999999999`, and an eleventh rectangle follows, from there to
`1.0999999999999999`. -/
theorem GetSpritesheetFrames_ten_columns :
    (GetSpritesheetFrames 12 (floatR 0 0 1 1) 10 1).map List.length = some 11 ∧
      (GetSpritesheetFrames 12 (floatR 0 0 1 1) 10 1).bind List.getLast? =
        some (floatR (.fin false 9007199254740991 (-53)) 0
          (.fin false 4953959590107545 (-52)) 1) := by
  decide

set_option maxRecDepth 100000 in
/-- The 100 by 100 square cut into 3 by 3 tiles: 9 rectangles, the bottom row
from `y = -2^-46` (about `-1.42e-14`), below the bottom edge. -/
theorem GetSpritesheetFrames_three_by_three :
    (GetSpritesheetFrames 5 (floatR 0 0 100 100) 3 3).map List.length = some 9 ∧
      (GetSpritesheetFrames 5 (floatR 0 0 100 100) 3 3).bind List.getLast? =
        some (floatR (.fin false 4691249611844267 (-46)) (.fin true 1 (-46)) 100
          (.fin false 4691249611844265 (-47))) := by
  decide

set_option maxRecDepth 100000 in
/-- A grid of width 0: the step is `1 / 0 = +Inf` and one rectangle is returned,
from 0 to `+Inf`. -/
theorem GetSpritesheetFrames_zero_width :
    GetSpritesheetFrames 2 (floatR 0 0 1 1) 0 1 = some [floatR 0 0 (.inf false) 1] := by
  decide

/-! ## The claims -/

/-- C1, picture round trip: a picture with fewer than `2^31` pixels, a stride
that fits a signed 32-bit integer and four 64-bit patterns as rectangle bounds
is encoded successfully, and decoding the bytes succeeds and returns the same
pixel sequence, the same stride and the same rectangle. -/
theorem picture_round_trip (p : PictureData) (hn : p.Pix.length < 2 ^ 31)
    (hs : IsInt32 p.Stride) (hr : p.Rect.WF) :
    ∃ bytes, PictureDataToBytes p = .ok bytes ∧
      ∃ q, PictureDataFromBytes bytes = .ok q ∧
        q.Pix = p.Pix ∧ q.Stride = p.Stride ∧ q.Rect = p.Rect := by
  refine ⟨pictureLayout p, PictureDataToBytes_eq p, p, ?_, rfl, rfl, rfl⟩
  have h := PictureDataFromBytes_layout_append p [] hn hs hr
  rwa [List.append_nil] at h

/-- Scenario A (two pixels, stride 2, rectangle `(0,0,2,1)`) round-trips. -/
theorem picture_round_trip_scenarioA :
    (scenarioA.Pix.length < 2 ^ 31 ∧ IsInt32 scenarioA.Stride ∧ scenarioA.Rect.WF) ∧
      ∃ bytes, PictureDataToBytes scenarioA = .ok bytes ∧
        ∃ q, PictureDataFromBytes bytes = .ok q ∧
          q.Pix = scenarioA.Pix ∧ q.Stride = scenarioA.Stride ∧ q.Rect = scenarioA.Rect :=
  ⟨⟨by decide, by decide, by decide⟩,
    picture_round_trip scenarioA (by decide) (by decide) (by decide)⟩

/-- C2, animation round trip: an animation with as many durations as frames,
a name shorter than `2^31` bytes and fewer than `2^31` frames is encoded
successfully, and decoding the bytes succeeds and returns the same name, the
same frames in order and the same durations in order. -/
theorem animation_round_trip (a : AnimationData) (hlen : a.Frames.length = a.Durations.length)
    (hL : a.Spritesheet.length < 2 ^ 31) (hF : a.Frames.length < 2 ^ 31)
    (hw : ∀ r ∈ a.Frames, r.WF) (hd : ∀ d ∈ a.Durations, IsInt32 d) :
    ∃ bytes, AnimationDataToBytes a = .ok bytes ∧
      ∃ c, AnimationDataFromBytes bytes = .ok c ∧
        c.Spritesheet = a.Spritesheet ∧ c.Frames = a.Frames ∧ c.Durations = a.Durations := by
  refine ⟨animationLayout a, AnimationDataToBytes_eq a, a, ?_, rfl, rfl, rfl⟩
  have h := AnimationDataFromBytes_layout_append a [] hL hF hlen hw hd
  rwa [List.append_nil] at h

/-- Scenario B (`"hero"`, two frames, durations 100 and 150) round-trips. -/
theorem animation_round_trip_scenarioB :
    (scenarioB.Frames.length = scenarioB.Durations.length ∧
        scenarioB.Spritesheet.length < 2 ^ 31 ∧ scenarioB.Frames.length < 2 ^ 31) ∧
      ∃ bytes, AnimationDataToBytes scenarioB = .ok bytes ∧
        ∃ c, AnimationDataFromBytes bytes = .ok c ∧
          c.Spritesheet = scenarioB.Spritesheet ∧ c.Frames = scenarioB.Frames ∧
            c.Durations = scenarioB.Durations :=
  ⟨⟨by decide, by decide, by decide⟩,
    animation_round_trip scenarioB (by decide) (by decide) (by decide) (by decide) (by decide)⟩

/-- C4, truncation of a picture: a picture with fewer than `2^31` pixels is
encoded successfully, and decoding any strict prefix of the bytes, the empty
one included, returns an error and no picture. -/
theorem picture_truncation (p : PictureData) (hn : p.Pix.length < 2 ^ 31) :
    ∃ bytes, PictureDataToBytes p = .ok bytes ∧
      ∀ b, b <+: bytes → b ≠ bytes → ReturnsError (PictureDataFromBytes b) :=
  ⟨pictureLayout p, PictureDataToBytes_eq p, fun _ hpre hne =>
    PictureDataFromBytes_strict p hn hpre hne⟩

/-- Every strict prefix of the encoding of scenario A is rejected. -/
theorem picture_truncation_scenarioA :
    scenarioA.Pix.length < 2 ^ 31 ∧
      ∃ bytes, PictureDataToBytes scenarioA = .ok bytes ∧
        ∀ b, b <+: bytes → b ≠ bytes → ReturnsError (PictureDataFromBytes b) :=
  ⟨by decide, picture_truncation scenarioA (by decide)⟩

/-- C5 as stated fails: the animation with a name of `2^32` zero bytes and no
frames has as many durations as frames, its encoding starts with the length
field `int32(2^32) = 0`, and the strict prefix made of the first eight bytes is
decoded successfully, as an animation with an empty name. -/
theorem animation_truncation_long_name :
    longNameAnimation.Frames.length = longNameAnimation.Durations.length ∧
      ∃ bytes, AnimationDataToBytes longNameAnimation = .ok bytes ∧
        [0, 0, 0, 0, 0, 0, 0, 0] <+: bytes ∧ [0, 0, 0, 0, 0, 0, 0, 0] ≠ bytes ∧
        AnimationDataFromBytes [0, 0, 0, 0, 0, 0, 0, 0] =
          .ok { Spritesheet := [], Frames := [], Durations := [] } := by
  refine ⟨rfl, animationLayout longNameAnimation, AnimationDataToBytes_eq _, ?_, ?_, rfl⟩
  · rw [animationLayout_longName]
    exact List.prefix_append _ _
  · intro h
    have hl := congrArg List.length h
    rw [length_animationLayout_longName] at hl
    have h8 : ([0, 0, 0, 0, 0, 0, 0, 0] : List Nat).length = 8 := rfl
    rw [h8] at hl
    omega

/-- C5, amended: an animation with as many durations as frames, a name shorter
than `2^31` bytes and fewer than `2^31` frames is encoded successfully, and
decoding any strict prefix of the bytes, also one that ends inside the name,
returns an error and no animation. -/
theorem animation_truncation (a : AnimationData) (hlen : a.Frames.length = a.Durations.length)
    (hL : a.Spritesheet.length < 2 ^ 31) (hF : a.Frames.length < 2 ^ 31) :
    ∃ bytes, AnimationDataToBytes a = .ok bytes ∧
      ∀ b, b <+: bytes → b ≠ bytes → ReturnsError (AnimationDataFromBytes b) :=
  ⟨animationLayout a, AnimationDataToBytes_eq a, fun _ hpre hne =>
    AnimationDataFromBytes_strict a hL hF hlen hpre hne⟩

/-- Every strict prefix of the encoding of scenario B is rejected. -/
theorem animation_truncation_scenarioB :
    (scenarioB.Frames.length = scenarioB.Durations.length ∧
        scenarioB.Spritesheet.length < 2 ^ 31 ∧ scenarioB.Frames.length < 2 ^ 31) ∧
      ∃ bytes, AnimationDataToBytes scenarioB = .ok bytes ∧
        ∀ b, b <+: bytes → b ≠ bytes → ReturnsError (AnimationDataFromBytes b) :=
  ⟨⟨by decide, by decide, by decide⟩,
    animation_truncation scenarioB (by decide) (by decide) (by decide)⟩

/-- C6 fails on the code: on the four bytes `FF FF FF FF`, which declare the
name length `-1`, `AnimationDataFromBytes` neither returns an animation nor an
error: `make([]byte, nameLength)` panics. -/
theorem animation_decode_negative_length_panics :
    AnimationDataFromBytes [255, 255, 255, 255] = .error .panic := rfl

/-- C7, picture byte layout: the encoding of a picture with `n < 2^31` pixels
is the big-endian 32-bit count `n`, then the bytes R, G, B, A of every pixel in
order, then the stride as a big-endian signed 32-bit integer, then minX, minY,
maxX, maxY as eight big-endian bytes each; it is `40 + 4n` bytes long. -/
theorem picture_byte_layout (p : PictureData) (hn : p.Pix.length < 2 ^ 31) :
    ∃ bytes, PictureDataToBytes p = .ok bytes ∧
      bytes = bigEndian 4 p.Pix.length ++ (p.Pix.map layoutPixel).flatten ++
        layoutInt32 p.Stride ++ (layoutFloat64 p.Rect.Min.X ++ layoutFloat64 p.Rect.Min.Y ++
          layoutFloat64 p.Rect.Max.X ++ layoutFloat64 p.Rect.Max.Y) ∧
      bytes.length = 40 + 4 * p.Pix.length := by
  refine ⟨pictureLayout p, PictureDataToBytes_eq p, ?_, length_pictureLayout p⟩
  have hc : layoutInt32 (p.Pix.length : Int) = bigEndian 4 p.Pix.length := by
    unfold layoutInt32
    congr 1
    omega
  rw [pictureLayout, hc, layoutRect]

/-- The layout of scenario A, byte for byte. -/
theorem picture_byte_layout_scenarioA :
    scenarioA.Pix.length < 2 ^ 31 ∧
      ∃ bytes, PictureDataToBytes scenarioA = .ok bytes ∧
        bytes = bigEndian 4 scenarioA.Pix.length ++ (scenarioA.Pix.map layoutPixel).flatten ++
          layoutInt32 scenarioA.Stride ++
          (layoutFloat64 scenarioA.Rect.Min.X ++ layoutFloat64 scenarioA.Rect.Min.Y ++
            layoutFloat64 scenarioA.Rect.Max.X ++ layoutFloat64 scenarioA.Rect.Max.Y) ∧
        bytes.length = 40 + 4 * scenarioA.Pix.length :=
  ⟨by decide, picture_byte_layout scenarioA (by decide)⟩

/-- C8, animation byte layout: the encoding of any animation is the name length
as a big-endian signed 32-bit integer, the raw name bytes, the frame count as a
big-endian signed 32-bit integer, minX, minY, maxX, maxY of every frame in order
as eight big-endian bytes each, then every duration in order as a big-endian
signed 32-bit integer (a count that does not fit 32 bits is written reduced
modulo `2^32`, as the conversion `int32` does); with as many durations as
frames, `f` of each, it is `8 + len(name) + 36 f` bytes long. -/
theorem animation_byte_layout (a : AnimationData) :
    ∃ bytes, AnimationDataToBytes a = .ok bytes ∧
      bytes = layoutInt32 (a.Spritesheet.length : Int) ++ a.Spritesheet ++
        layoutInt32 (a.Frames.length : Int) ++ (a.Frames.map layoutRect).flatten ++
        (a.Durations.map layoutInt32).flatten ∧
      ∀ f, a.Frames.length = f → a.Durations.length = f →
        bytes.length = 8 + a.Spritesheet.length + 36 * f := by
  refine ⟨animationLayout a, AnimationDataToBytes_eq a, rfl, ?_⟩
  intro f hF hD
  rw [length_animationLayout, hF, hD]
  omega

/-- C9, encoding is infallible: both encoders return bytes, never an error, for
every picture and every animation, whatever the numbers of frames and of
durations. -/
theorem encoding_infallible (p : PictureData) (a : AnimationData) :
    (∃ bytes, PictureDataToBytes p = .ok bytes) ∧
      ∃ bytes, AnimationDataToBytes a = .ok bytes :=
  ⟨⟨_, PictureDataToBytes_eq p⟩, ⟨_, AnimationDataToBytes_eq a⟩⟩

/-- C10, namespace disjointness: an animation key is never a tag key, whatever
the two logical keys are. -/
theorem namespace_disjoint (k1 k2 : List Nat) : AnimationKey k1 ≠ TagKey k2 := by
  intro h
  have h1 : asciiBytes "anim:" = [97, 110, 105, 109, 58] := by decide
  have h2 : asciiBytes "tag:" = [116, 97, 103, 58] := by decide
  rw [AnimationKey, TagKey, h1, h2] at h
  simp at h

/-- C11, key namespacing: for every key `k`, `AnimationKey k` is the bytes of
`"anim:"` followed by `k` and `TagKey k` is the bytes of `"tag:"` followed by
`k` (both functions are total); for `"walk"` the results are `"anim:walk"` and
`"tag:walk"`. -/
theorem key_namespacing (k : List Nat) :
    AnimationKey k = [97, 110, 105, 109, 58] ++ k ∧ TagKey k = [116, 97, 103, 58] ++ k ∧
      AnimationKey (asciiBytes "walk") = asciiBytes "anim:walk" ∧
      TagKey (asciiBytes "walk") = asciiBytes "tag:walk" := by
  have h1 : asciiBytes "anim:" = [97, 110, 105, 109, 58] := by decide
  have h2 : asciiBytes "tag:" = [116, 97, 103, 58] := by decide
  refine ⟨by rw [AnimationKey, h1], by rw [TagKey, h2], by decide, by decide⟩

/-- C12, decoded animations are length-coupled: whenever
`AnimationDataFromBytes` succeeds, the animation it returns has as many
durations as frames, and that number is `max(frameCount, 0)` for the signed
32-bit frame count read after the name. -/
theorem decoded_animation_length_coupled (data : List Nat) (a : AnimationData)
    (h : AnimationDataFromBytes data = .ok a) :
    a.Frames.length = a.Durations.length ∧
      (a.Frames.length : Int) = max (frameCountField data) 0 ∧
      (a.Durations.length : Int) = max (frameCountField data) 0 := by
  obtain ⟨-, -, -, -, hf, hd⟩ := AnimationDataFromBytes_ok_imp h
  rw [hf, hd, Int.toNat_eq_max]
  exact ⟨rfl, rfl, rfl⟩

/-- The decoded scenario B has two frames and two durations, the declared count. -/
theorem decoded_animation_length_coupled_scenarioB :
    AnimationDataFromBytes scenarioBBytes = .ok scenarioB ∧
      scenarioB.Frames.length = scenarioB.Durations.length ∧
      (scenarioB.Frames.length : Int) = max (frameCountField scenarioBBytes) 0 ∧
      (scenarioB.Durations.length : Int) = max (frameCountField scenarioBBytes) 0 :=
  ⟨rfl, decoded_animation_length_coupled scenarioBBytes scenarioB rfl⟩

/-- C13, the picture decoder fails exactly on truncation: with `c` the signed
32-bit integer in the first four bytes, `PictureDataFromBytes data` succeeds if
and only if `data` has at least 4 bytes and at least `40 + 4 * max(c, 0)`; a
result has exactly `max(c, 0)` pixels; and when it does not succeed it returns an
error and no picture. -/
theorem picture_decode_succeeds_iff (data : List Nat) :
    ((∃ p, PictureDataFromBytes data = .ok p) ↔
        4 ≤ data.length ∧ 40 + 4 * max (leadingInt32 data) 0 ≤ (data.length : Int)) ∧
      (∀ p, PictureDataFromBytes data = .ok p →
        (p.Pix.length : Int) = max (leadingInt32 data) 0) ∧
      ((¬ ∃ p, PictureDataFromBytes data = .ok p) →
        ReturnsError (PictureDataFromBytes data)) := by
  have hmax : max (leadingInt32 data) 0 = ((leadingInt32 data).toNat : Int) :=
    (Int.toNat_eq_max _).symm
  rw [hmax]
  refine ⟨⟨?_, ?_⟩, ?_, ?_⟩
  · rintro ⟨p, hp⟩
    obtain ⟨h4, hs, -⟩ := PictureDataFromBytes_ok_imp hp
    exact ⟨h4, by omega⟩
  · rintro ⟨h4, hs⟩
    obtain ⟨p, hp, -⟩ := PictureDataFromBytes_of_le h4 (by omega)
    exact ⟨p, hp⟩
  · intro p hp
    obtain ⟨-, -, hl⟩ := PictureDataFromBytes_ok_imp hp
    rw [hl]
  · intro hno
    rcases Nat.lt_or_ge data.length 4 with h4 | h4
    · exact PictureDataFromBytes_of_lt_four h4
    rcases Nat.lt_or_ge data.length (40 + 4 * (leadingInt32 data).toNat) with hs | hs
    · exact PictureDataFromBytes_of_short h4 hs
    · obtain ⟨p, hp, -⟩ := PictureDataFromBytes_of_le h4 hs
      exact absurd ⟨p, hp⟩ hno

/-- C14, the animation decoder fails exactly on truncation when the name length
is valid: for `data` of at least 4 bytes whose leading signed 32-bit integer `L`
is not negative, `AnimationDataFromBytes data` succeeds if and only if `data`
has at least `8 + L + 36 * max(f, 0)` bytes, `f` being the signed 32-bit integer
at offset `4 + L`; a result carries as name exactly the `L` bytes that follow the
length field, never a shorter read padded with zeros. -/
theorem animation_decode_succeeds_iff (data : List Nat) (h4 : 4 ≤ data.length)
    (h0 : 0 ≤ leadingInt32 data) :
    ((∃ a, AnimationDataFromBytes data = .ok a) ↔
        8 + leadingInt32 data + 36 * max (frameCountField data) 0 ≤ (data.length : Int)) ∧
      ∀ a, AnimationDataFromBytes data = .ok a →
        a.Spritesheet = (data.drop 4).take (leadingInt32 data).toNat ∧
          (a.Spritesheet.length : Int) = leadingInt32 data := by
  have hmax : max (frameCountField data) 0 = ((frameCountField data).toNat : Int) :=
    (Int.toNat_eq_max _).symm
  have hL : ((leadingInt32 data).toNat : Int) = leadingInt32 data := Int.toNat_of_nonneg h0
  rw [hmax]
  refine ⟨⟨?_, ?_⟩, ?_⟩
  · rintro ⟨a, ha⟩
    obtain ⟨-, -, hs, -⟩ := AnimationDataFromBytes_ok_imp ha
    omega
  · intro hs
    obtain ⟨a, ha, -⟩ := AnimationDataFromBytes_of_le h4 h0 (by omega)
    exact ⟨a, ha⟩
  · intro a ha
    obtain ⟨-, -, hs, hn, -⟩ := AnimationDataFromBytes_ok_imp ha
    refine ⟨hn, ?_⟩
    rw [hn, List.length_take, List.length_drop, Nat.min_eq_left (by omega), hL]

/-- The name `"hero"` cut after two bytes: the input is too short and there is
no result. -/
theorem animation_decode_succeeds_iff_cut_in_name :
    (4 ≤ [0, 0, 0, 4, 104, 101].length ∧ 0 ≤ leadingInt32 [0, 0, 0, 4, 104, 101]) ∧
      ((∃ a, AnimationDataFromBytes [0, 0, 0, 4, 104, 101] = .ok a) ↔
        8 + leadingInt32 [0, 0, 0, 4, 104, 101] +
            36 * max (frameCountField [0, 0, 0, 4, 104, 101]) 0 ≤
          (([0, 0, 0, 4, 104, 101] : List Nat).length : Int)) ∧
      ∀ a, AnimationDataFromBytes [0, 0, 0, 4, 104, 101] = .ok a →
        a.Spritesheet = (List.drop 4 [0, 0, 0, 4, 104, 101]).take
            (leadingInt32 [0, 0, 0, 4, 104, 101]).toNat ∧
          (a.Spritesheet.length : Int) = leadingInt32 [0, 0, 0, 4, 104, 101] :=
  ⟨⟨by decide, by decide⟩,
    animation_decode_succeeds_iff [0, 0, 0, 4, 104, 101] (by decide) (by decide)⟩

/-- C15 as stated fails: the animation with a name of `2^32` zero bytes, one
frame and no duration has fewer durations than frames, yet its encoding, whose
name length field is `int32(2^32) = 0`, is decoded successfully, as the empty
animation. -/
theorem too_few_durations_long_name :
    longNameOneFrame.Durations.length < longNameOneFrame.Frames.length ∧
      ∃ bytes, AnimationDataToBytes longNameOneFrame = .ok bytes ∧
        AnimationDataFromBytes bytes = .ok emptyAnimation := by
  refine ⟨by decide, animationLayout longNameOneFrame, AnimationDataToBytes_eq _, ?_⟩
  obtain ⟨tail, ht⟩ := animationLayout_replicate_name [R 0 0 0 0] []
  have hdef : longNameOneFrame =
      { Spritesheet := List.replicate (2 ^ 32) 0, Frames := [R 0 0 0 0], Durations := [] } := rfl
  rw [hdef, ht]
  exact AnimationDataFromBytes_emptyAnimation_append tail

/-- C15, amended: an animation with fewer durations than frames, a name shorter
than `2^31` bytes and fewer than `2^31` frames is encoded successfully, and
decoding the bytes returns an error. -/
theorem too_few_durations_undecodable (a : AnimationData)
    (hlt : a.Durations.length < a.Frames.length)
    (hL : a.Spritesheet.length < 2 ^ 31) (hF : a.Frames.length < 2 ^ 31) :
    ∃ bytes, AnimationDataToBytes a = .ok bytes ∧
      ReturnsError (AnimationDataFromBytes bytes) := by
  refine ⟨animationLayout a, AnimationDataToBytes_eq a, ?_⟩
  obtain ⟨hl, hf⟩ := frameCountField_animationLayout a hL hF
  have hlen := length_animationLayout a
  apply AnimationDataFromBytes_of_short_frames
  · omega
  · rw [hl]; exact Int.natCast_nonneg _
  · rw [hl, Int.toNat_ofNat]; omega
  · rw [hl, hf, Int.toNat_ofNat, Int.toNat_ofNat]; omega

/-- Scenario B without its second duration is encoded and cannot be decoded. -/
theorem too_few_durations_undecodable_scenarioB :
    (scenarioBShort.Durations.length < scenarioBShort.Frames.length ∧
        scenarioBShort.Spritesheet.length < 2 ^ 31 ∧ scenarioBShort.Frames.length < 2 ^ 31) ∧
      ∃ bytes, AnimationDataToBytes scenarioBShort = .ok bytes ∧
        ReturnsError (AnimationDataFromBytes bytes) :=
  ⟨⟨by decide, by decide, by decide⟩,
    too_few_durations_undecodable scenarioBShort (by decide) (by decide) (by decide)⟩

set_option maxRecDepth 100000 in
/-- C16 as stated fails, in three ways. For the empty bounding rectangle
`(0,0,0,0)` and a 1 by 1 grid the function returns no rectangle, not `1 * 1`.
For the bounding rectangle `(0,0,32,32)` and a grid of 6 columns and 1 row it
returns 7 rectangles, not `6 * 1`: the step is `32 / 6` rounded to
`5.333333333333333`, six additions of it give `31.999999999999996`, which is
still below 32, and the seventh rectangle ends at `37.33333333333333`, outside
the bounding rectangle. For the bounding rectangle `(10,10,20,20)` and a 1 by 1
grid it returns the rectangle `(0,0,10,10)`, which does not lie inside the
bounding rectangle. -/
theorem frame_tiling_fails :
    ((∀ fuel, 1 ≤ fuel → GetSpritesheetFrames fuel (floatR 0 0 0 0) 1 1 = some []) ∧
        (([] : List FloatRect).length : Int) ≠ 1 * 1) ∧
      ((∀ fuel, 8 ≤ fuel →
          GetSpritesheetFrames fuel (floatR 0 0 32 32) 6 1 = some
            [floatR 0 0 (.fin false 6004799503160661 (-50)) 32,
              floatR (.fin false 6004799503160661 (-50)) 0
                (.fin false 6004799503160661 (-49)) 32,
              floatR (.fin false 6004799503160661 (-49)) 0 16 32,
              floatR 16 0 (.fin false 6004799503160661 (-48)) 32,
              floatR (.fin false 6004799503160661 (-48)) 0
                (.fin false 3752999689475413 (-47)) 32,
              floatR (.fin false 3752999689475413 (-47)) 0
                (.fin false 9007199254740991 (-48)) 32,
              floatR (.fin false 9007199254740991 (-48)) 0
                (.fin false 2627099782632789 (-46)) 32]) ∧
        ¬ (floatR (.fin false 9007199254740991 (-48)) 0
            (.fin false 2627099782632789 (-46)) 32).Inside (floatR 0 0 32 32)) ∧
      (∀ fuel, 2 ≤ fuel →
          GetSpritesheetFrames fuel (floatR 10 10 20 20) 1 1 = some [floatR 0 0 10 10]) ∧
        ¬ (floatR 0 0 10 10).Inside (floatR 10 10 20 20) := by
  refine ⟨⟨fun fuel hf => ?_, by decide⟩, ⟨fun fuel hf => ?_, by decide⟩,
    fun fuel hf => ?_, by decide⟩
  · exact GetSpritesheetFrames_fuel_mono 1 fuel _ _ _ _ (by decide) hf
  · exact GetSpritesheetFrames_fuel_mono 8 fuel _ _ _ _ (by decide) hf
  · exact GetSpritesheetFrames_fuel_mono 2 fuel _ _ _ _ (by decide) hf

/-- C16, amended: for a bounding rectangle from the origin whose width and
height are positive whole numbers below `2^53`, and a grid of positive width
`w` and height `h` that divide them, `GetSpritesheetFrames` (with fuel above
`w` and `h`) returns exactly `w * h` rectangles, ordered by tile rows from top
to bottom and within a row from left to right: the rectangle at position
`r * w + c` is the cell in row `r`, column `c` of the bounding rectangle divided
evenly into `w` columns and `h` rows; every returned rectangle lies inside the
bounding rectangle. On these inputs no `float64` operation of the run rounds. -/
theorem frame_tiling (pixelWidth pixelHeight w h : Int) (fuel : Nat)
    (hW : 0 < pixelWidth) (hH : 0 < pixelHeight)
    (hWb : pixelWidth < 2 ^ 53) (hHb : pixelHeight < 2 ^ 53)
    (hw : 0 < w) (hh : 0 < h) (hdw : w ∣ pixelWidth) (hdh : h ∣ pixelHeight)
    (hfw : w < fuel) (hfh : h < fuel) :
    ∃ frames,
      GetSpritesheetFrames fuel
          (floatR 0 0 (Float64.ofInt pixelWidth) (Float64.ofInt pixelHeight)) w h =
        some frames ∧
      (frames.length : Int) = w * h ∧
      frames = tiling 0 0 pixelWidth pixelHeight w h ∧
      (∀ r c : Nat, (r : Int) < h → (c : Int) < w →
        frames[r * w.toNat + c]? = some (tileCell 0 0 pixelWidth pixelHeight w h r c)) ∧
      ∀ f ∈ frames,
        f.Inside (floatR 0 0 (Float64.ofInt pixelWidth) (Float64.ofInt pixelHeight)) := by
  have heq := GetSpritesheetFrames_eq pixelWidth pixelHeight w h fuel hW hH hw hh hdw hdh
    hWb hHb hfw hfh
  refine ⟨tiling 0 0 pixelWidth pixelHeight w h, heq, ?_, rfl, ?_, ?_⟩
  · rw [length_tiling]
    push_cast
    rw [Int.toNat_of_nonneg hw.le, Int.toNat_of_nonneg hh.le]
    ring
  · intro r c hr hc
    exact getElem?_flatten_map_range (fun r c => tileCell 0 0 pixelWidth pixelHeight w h r c)
      w.toNat h.toNat r c (by omega) (by omega)
  · intro f hf
    obtain ⟨r, c, hr, hc, rfl⟩ := mem_tiling hf
    exact tileCell_inside pixelWidth pixelHeight w h r c hW hH hw hh hdw hdh hWb hHb hr hc

/-- A 64 by 32 spritesheet cut into 2 by 2 tiles. -/
theorem frame_tiling_two_by_two :
    ((0 : Int) < 64 ∧ (0 : Int) < 32 ∧ (64 : Int) < 2 ^ 53 ∧ (32 : Int) < 2 ^ 53 ∧
        (0 : Int) < 2 ∧ (2 : Int) ∣ 64 ∧ (2 : Int) ∣ 32 ∧ (2 : Int) < (3 : Nat)) ∧
      ∃ frames,
        GetSpritesheetFrames 3 (floatR 0 0 (Float64.ofInt 64) (Float64.ofInt 32)) 2 2 =
          some frames ∧
        (frames.length : Int) = 2 * 2 ∧
        frames = tiling 0 0 64 32 2 2 ∧
        (∀ r c : Nat, (r : Int) < 2 → (c : Int) < 2 →
          frames[r * (2 : Int).toNat + c]? = some (tileCell 0 0 64 32 2 2 r c)) ∧
        ∀ f ∈ frames, f.Inside (floatR 0 0 (Float64.ofInt 64) (Float64.ofInt 32)) :=
  ⟨⟨by decide, by decide, by decide, by decide, by decide, by decide, by decide, by decide⟩,
    frame_tiling 64 32 2 2 3 (by decide) (by decide) (by decide) (by decide) (by decide)
      (by decide) (by decide) (by decide) (by decide) (by decide)⟩

/-- C17 as stated fails: the animation with a name of `2^32` zero bytes, no
frame and one duration has more durations than frames, and decoding its
encoding succeeds but returns an empty name, not the name of the animation. -/
theorem surplus_durations_long_name :
    longNameOneDuration.Frames.length < longNameOneDuration.Durations.length ∧
      ∃ bytes, AnimationDataToBytes longNameOneDuration = .ok bytes ∧
        ∃ c, AnimationDataFromBytes bytes = .ok c ∧
          c.Spritesheet ≠ longNameOneDuration.Spritesheet := by
  refine ⟨by decide, animationLayout longNameOneDuration, AnimationDataToBytes_eq _,
    emptyAnimation, ?_, ?_⟩
  · obtain ⟨tail, ht⟩ := animationLayout_replicate_name [] [5]
    have hdef : longNameOneDuration =
        { Spritesheet := List.replicate (2 ^ 32) 0, Frames := [], Durations := [5] } := rfl
    rw [hdef, ht]
    exact AnimationDataFromBytes_emptyAnimation_append tail
  · intro h
    have hs : longNameOneDuration.Spritesheet = List.replicate (2 ^ 32) 0 := rfl
    have he : emptyAnimation.Spritesheet = [] := rfl
    rw [hs, he] at h
    have hl := congrArg List.length h
    rw [List.length_replicate, List.length_nil] at hl
    omega

/-- C17, amended: for an animation with more durations than frames, a name
shorter than `2^31` bytes and fewer than `2^31` frames, decoding the encoding
succeeds and returns the same name, the same frames and only the first
`len(Frames)` durations, so a result that differs from the animation, with no
error. -/
theorem surplus_durations_dropped (a : AnimationData)
    (hgt : a.Frames.length < a.Durations.length)
    (hL : a.Spritesheet.length < 2 ^ 31) (hF : a.Frames.length < 2 ^ 31)
    (hw : ∀ r ∈ a.Frames, r.WF) (hd : ∀ d ∈ a.Durations, IsInt32 d) :
    ∃ bytes, AnimationDataToBytes a = .ok bytes ∧
      ∃ c, AnimationDataFromBytes bytes = .ok c ∧
        c.Spritesheet = a.Spritesheet ∧ c.Frames = a.Frames ∧
        c.Durations = a.Durations.take a.Frames.length ∧ c ≠ a := by
  have hc : AnimationDataFromBytes (animationLayout a) =
      .ok { a with Durations := a.Durations.take a.Frames.length } := by
    rw [animationLayout_take_durations a a.Frames.length]
    refine AnimationDataFromBytes_layout_append
      { a with Durations := a.Durations.take a.Frames.length } _ hL hF ?_ hw ?_
    · show a.Frames.length = (a.Durations.take a.Frames.length).length
      rw [List.length_take]
      omega
    · intro d hdm
      exact hd d (List.mem_of_mem_take hdm)
  refine ⟨animationLayout a, AnimationDataToBytes_eq a, _, hc, rfl, rfl, rfl, ?_⟩
  intro h
  have hl : (a.Durations.take a.Frames.length).length = a.Durations.length :=
    congrArg (fun x : AnimationData => x.Durations.length) h
  rw [List.length_take] at hl
  omega

/-- Scenario B with a third duration decodes to scenario B's two durations. -/
theorem surplus_durations_dropped_scenarioB :
    (scenarioBSurplus.Frames.length < scenarioBSurplus.Durations.length ∧
        scenarioBSurplus.Spritesheet.length < 2 ^ 31 ∧
        scenarioBSurplus.Frames.length < 2 ^ 31) ∧
      ∃ bytes, AnimationDataToBytes scenarioBSurplus = .ok bytes ∧
        ∃ c, AnimationDataFromBytes bytes = .ok c ∧
          c.Spritesheet = scenarioBSurplus.Spritesheet ∧ c.Frames = scenarioBSurplus.Frames ∧
          c.Durations = scenarioBSurplus.Durations.take scenarioBSurplus.Frames.length ∧
          c ≠ scenarioBSurplus :=
  ⟨⟨by decide, by decide, by decide⟩,
    surplus_durations_dropped scenarioBSurplus (by decide) (by decide) (by decide)
      (by decide) (by decide)⟩

/-- C18 as stated fails: for the picture of `2^32` zero pixels with stride 5,
whose count field is `int32(2^32) = 0`, decoding the encoding succeeds with the
stride 0, read from the pixel bytes, and not with `int32(5) = 5`. -/
theorem stride_of_huge_picture :
    ∃ bytes, PictureDataToBytes hugePicture = .ok bytes ∧
      ∃ q, PictureDataFromBytes bytes = .ok q ∧
        q.Stride ≠ int32OfUint32 (hugePicture.Stride % 2 ^ 32).toNat := by
  refine ⟨pictureLayout hugePicture, PictureDataToBytes_eq _, emptyPicture, ?_, by decide⟩
  obtain ⟨tail, ht⟩ := pictureLayout_replicate_pix 5 (R 0 0 0 0)
  have hdef : hugePicture =
      { Pix := List.replicate (2 ^ 32) ⟨0, 0, 0, 0⟩, Stride := 5, Rect := R 0 0 0 0 } := rfl
  rw [hdef, ht]
  exact PictureDataFromBytes_emptyPicture_append tail

/-- C18, amended: for a picture with fewer than `2^31` pixels and any stride
`s`, decoding the encoding succeeds with the stride `s` reduced modulo `2^32`
and reinterpreted as a signed 32-bit integer; so the round trip preserves the
stride if and only if `-2^31 ≤ s < 2^31`. -/
theorem stride_narrowed (p : PictureData) (hn : p.Pix.length < 2 ^ 31) (hr : p.Rect.WF) :
    ∃ bytes, PictureDataToBytes p = .ok bytes ∧
      ∃ q, PictureDataFromBytes bytes = .ok q ∧
        q.Stride = int32OfUint32 (p.Stride % 2 ^ 32).toNat ∧
        (q.Stride = p.Stride ↔ -2 ^ 31 ≤ p.Stride ∧ p.Stride < 2 ^ 31) := by
  refine ⟨pictureLayout p, PictureDataToBytes_eq p,
    { p with Stride := int32OfInt p.Stride }, ?_, int32OfInt_eq p.Stride,
    int32OfInt_eq_self_iff p.Stride⟩
  rw [pictureLayout_int32OfInt_stride p]
  have h := PictureDataFromBytes_layout_append { p with Stride := int32OfInt p.Stride } []
    hn (isInt32_int32OfInt p.Stride) hr
  rwa [List.append_nil] at h

/-- The stride `2^32 + 2` comes back as 2. -/
theorem stride_narrowed_wide_stride :
    (wideStridePicture.Pix.length < 2 ^ 31 ∧ wideStridePicture.Rect.WF) ∧
      ∃ bytes, PictureDataToBytes wideStridePicture = .ok bytes ∧
        ∃ q, PictureDataFromBytes bytes = .ok q ∧
          q.Stride = int32OfUint32 (wideStridePicture.Stride % 2 ^ 32).toNat ∧
          (q.Stride = wideStridePicture.Stride ↔
            -2 ^ 31 ≤ wideStridePicture.Stride ∧ wideStridePicture.Stride < 2 ^ 31) :=
  ⟨⟨by decide, by decide⟩, stride_narrowed wideStridePicture (by decide) (by decide)⟩

/-- C19, the picture decoder ignores trailing bytes: for a picture with fewer
than `2^31` pixels and a stride in the signed 32-bit range, decoding its
encoding followed by any bytes `t` succeeds and returns the same picture as
decoding the encoding alone. -/
theorem picture_decode_ignores_trailing (p : PictureData) (t : List Nat)
    (hn : p.Pix.length < 2 ^ 31) (hs : IsInt32 p.Stride) (hr : p.Rect.WF) :
    ∃ bytes, PictureDataToBytes p = .ok bytes ∧
      ∃ q, PictureDataFromBytes (bytes ++ t) = .ok q ∧ PictureDataFromBytes bytes = .ok q := by
  refine ⟨pictureLayout p, PictureDataToBytes_eq p, p,
    PictureDataFromBytes_layout_append p t hn hs hr, ?_⟩
  have h := PictureDataFromBytes_layout_append p [] hn hs hr
  rwa [List.append_nil] at h

/-- Scenario A followed by three stray bytes decodes to scenario A. -/
theorem picture_decode_ignores_trailing_scenarioA :
    (scenarioA.Pix.length < 2 ^ 31 ∧ IsInt32 scenarioA.Stride ∧ scenarioA.Rect.WF) ∧
      ∃ bytes, PictureDataToBytes scenarioA = .ok bytes ∧
        ∃ q, PictureDataFromBytes (bytes ++ [1, 2, 3]) = .ok q ∧
          PictureDataFromBytes bytes = .ok q :=
  ⟨⟨by decide, by decide, by decide⟩,
    picture_decode_ignores_trailing scenarioA [1, 2, 3] (by decide) (by decide) (by decide)⟩

/-- C20, key namespacing is injective within a namespace: two logical keys
with the same animation key are equal, and two logical keys with the same tag
key are equal. -/
theorem key_namespacing_injective (k1 k2 : List Nat) :
    (AnimationKey k1 = AnimationKey k2 → k1 = k2) ∧ (TagKey k1 = TagKey k2 → k1 = k2) :=
  ⟨fun h => List.append_cancel_left h, fun h => List.append_cancel_left h⟩

end Codec
